import Mathlib

/-!
Verification of the build-data CSV ingestion and reconciliation pipeline
of the openrecovery-sales repository.

The definitions below are a shallow embedding of the JavaScript sources:

* `scripts/build-data.mjs` (the canonical pipeline): `parseCSV`, `pick`,
  `norm`, `slug`, the Problem / Company index construction, the
  Company-Solutions attach loop with its mismatch counters, and the
  derivation of `company.problems`.
* the case-insensitive variant (src/unnamed/part_001): `keyify` and the
  case-insensitive `pick` (named `pickV2` here).

JavaScript strings are modelled as Lean `String`s (lists of characters);
row objects are association lists in insertion order (JS objects preserve
string-key insertion order, and `Map` preserves insertion order with
in-place overwrite, which `mset` below mirrors).  JS `trim` and the regex
class `\s` are modelled by `isJsSpace`, which lists the ECMAScript
whitespace code points.  `toLowerCase` is modelled on the ASCII range
(`jsLowerChar`); the pipeline only ever compares keys after stripping
non-ASCII letters, so nothing in the claims depends on Unicode case
mapping.
-/

namespace OpenRecovery

/-- ECMAScript whitespace (the `\s` regex class and the set trimmed by
`String.prototype.trim`): tab, LF, VT, FF, CR, space, NBSP, and the
Unicode space separators. -/
def isJsSpace (c : Char) : Bool :=
  c.toNat = 0x9 || c.toNat = 0xA || c.toNat = 0xB || c.toNat = 0xC ||
  c.toNat = 0xD || c.toNat = 0x20 || c.toNat = 0xA0 || c.toNat = 0x1680 ||
  (0x2000 ≤ c.toNat && c.toNat ≤ 0x200A) ||
  c.toNat = 0x2028 || c.toNat = 0x2029 || c.toNat = 0x202F ||
  c.toNat = 0x205F || c.toNat = 0x3000 || c.toNat = 0xFEFF

/-- Drop trailing JS whitespace from a character list. -/
def trimRightL (l : List Char) : List Char :=
  ((l.reverse.dropWhile isJsSpace).reverse)

/-- JS `String.prototype.trim` on a character list: drop leading and
trailing JS whitespace. -/
def jsTrimL (l : List Char) : List Char :=
  trimRightL (l.dropWhile isJsSpace)

/-- JS `String.prototype.trim`. -/
def jsTrim (s : String) : String :=
  String.mk (jsTrimL s.data)

/-- ASCII lower-case letter `a`..`z`. -/
def isAsciiLower (c : Char) : Bool :=
  97 ≤ c.toNat && c.toNat ≤ 122

/-- ASCII digit `0`..`9`. -/
def isDigitChar (c : Char) : Bool :=
  48 ≤ c.toNat && c.toNat ≤ 57

/-- JS `String.prototype.toLowerCase` restricted to the ASCII range:
`A`..`Z` map to `a`..`z`, everything else is unchanged. -/
def jsLowerChar (c : Char) : Char :=
  if h : 65 ≤ c.toNat ∧ c.toNat ≤ 90 then
    Char.ofNatAux (c.toNat + 32) (Or.inl (by omega))
  else c

/-- JS `String.prototype.toLowerCase` (ASCII model). -/
def jsToLower (s : String) : String :=
  String.mk (s.data.map jsLowerChar)

/-- The source's `norm` helper (both build-data.mjs line 77 and part_001
lines 45-47): `(x || "").toString().trim().toLowerCase()`. -/
def norm (s : String) : String :=
  jsToLower (jsTrim s)

/-- Replace each maximal run of characters satisfying `p` by the single
character `rep`.  The flag records whether the previous character was in a
run.  This models the JS regex replaces `replace(/\s+/g, " ")`,
`replace(/[^a-z0-9]+/g, "-")` and `replace(/\s+/g, "-")` that appear in
`keyify` and `slug`. -/
def squashRuns (p : Char → Bool) (rep : Char) : Bool → List Char → List Char
  | _, [] => []
  | prev, c :: rest =>
    if p c then
      if prev then squashRuns p rep true rest
      else rep :: squashRuns p rep true rest
    else c :: squashRuns p rep false rest

/-- Replacement `replace(/ /g, " ")` from `keyify`. -/
def nbspToSpace (c : Char) : Char :=
  if c.toNat = 0xA0 then ' ' else c

/-- Replacement of smart double quotes by an ASCII double quote from
`keyify`. -/
def smartDouble (c : Char) : Char :=
  if c.toNat = 0x201C ∨ c.toNat = 0x201D then '"' else c

/-- Replacement of smart single quotes by an ASCII apostrophe from
`keyify`. -/
def smartSingle (c : Char) : Char :=
  if c.toNat = 0x2018 ∨ c.toNat = 0x2019 then '\'' else c

/-- Character class kept by the `replace(/[^a-z0-9\s-]/g, "")` step of
`keyify`. -/
def keyifyKeep (c : Char) : Bool :=
  isAsciiLower c || isDigitChar c || isJsSpace c || c = '-'

/-- Replacement `replace(/[-_]/g, " ")` from `keyify`. -/
def dashToSpace (c : Char) : Char :=
  if c = '-' ∨ c = '_' then ' ' else c

/-- The `keyify` normalizer of src/unnamed/part_001 lines 50-59, stage by
stage on a character list: `norm`, then NBSP to space, smart quotes to
ASCII quotes, drop everything but `[a-z0-9\s-]`, hyphen and underscore to
space, collapse whitespace runs to a single space, and a final trim. -/
def keyifyL (l : List Char) : List Char :=
  jsTrimL
    (squashRuns isJsSpace ' ' false
      (List.map dashToSpace
        (List.filter keyifyKeep
          (List.map smartSingle
            (List.map smartDouble
              (List.map nbspToSpace
                (List.map jsLowerChar (jsTrimL l))))))))

/-- The `keyify` normalizer of src/unnamed/part_001 lines 50-59. -/
def keyify (s : String) : String :=
  String.mk (keyifyL s.data)

/-- Character class `[^a-z0-9]` used by `slug`. -/
def slugSep (c : Char) : Bool :=
  !(isAsciiLower c || isDigitChar c)

/-- The `slug` helper of build-data.mjs lines 78-82: `norm`, then `&` to
`"and"`, runs of `[^a-z0-9]` to a single hyphen, and strip leading and
trailing hyphens. -/
def slug (s : String) : String :=
  String.mk
    (((squashRuns slugSep '-' false
        ((norm s).data.flatMap (fun c => if c = '&' then ['a', 'n', 'd'] else [c]))).dropWhile
        (fun c => c = '-')).reverse.dropWhile (fun c => c = '-')).reverse

/-- The fallback `key.replace(/\s+/g, "-")` of build-data.mjs line 126. -/
def spacesToDash (s : String) : String :=
  String.mk (squashRuns isJsSpace '-' false s.data)

/-! ## The CSV tokenizer

`parseCSVLoop` is the character loop of `parseCSV` (build-data.mjs lines
25-57; the identical loop appears in part_000 lines 16-32 and part_001
lines 16-32).  The loop walks the text with one character of lookahead,
so the list is matched one or two characters at a time; the if-chain in
each arm is the source's if-chain.  `cur` accumulates the characters of
the current cell, `row` the finished cells of the current row, `rows` the
finished rows. -/

/-- Row termination (the newline branch of the loop): push `cur`, keep the
row only if some cell is non-blank after trimming. -/
def pushRow (rows : List (List String)) (row : List String) (cur : List Char) :
    List (List String) :=
  let row2 := row ++ [String.mk cur]
  if row2.any (fun v => jsTrim v != "") then rows ++ [row2] else rows

/-- The character loop of `parseCSV`.  The three list patterns distinguish
end of text, a final character (lookahead undefined), and a character with
lookahead. -/
def parseCSVLoop : List Char → List Char → List String → Bool → List (List String) →
    List (List String)
  | [], cur, row, _inQuotes, rows =>
    if cur ≠ [] ∨ row ≠ [] then rows ++ [row ++ [String.mk cur]] else rows
  | [c], cur, row, inQuotes, rows =>
    if c = '"' then
      parseCSVLoop [] cur row (!inQuotes) rows
    else if c = ',' ∧ inQuotes = false then
      parseCSVLoop [] [] (row ++ [String.mk cur]) inQuotes rows
    else if (c = '\n' ∨ c = '\r') ∧ inQuotes = false then
      parseCSVLoop [] [] [] inQuotes (pushRow rows row cur)
    else
      parseCSVLoop [] (cur ++ [c]) row inQuotes rows
  | c :: d :: rest, cur, row, inQuotes, rows =>
    if c = '"' ∧ inQuotes = true ∧ d = '"' then
      parseCSVLoop rest (cur ++ ['"']) row inQuotes rows
    else if c = '"' then
      parseCSVLoop (d :: rest) cur row (!inQuotes) rows
    else if c = ',' ∧ inQuotes = false then
      parseCSVLoop (d :: rest) [] (row ++ [String.mk cur]) inQuotes rows
    else if (c = '\n' ∨ c = '\r') ∧ inQuotes = false then
      if c = '\r' ∧ d = '\n' then
        parseCSVLoop rest [] [] inQuotes (pushRow rows row cur)
      else
        parseCSVLoop (d :: rest) [] [] inQuotes (pushRow rows row cur)
    else
      parseCSVLoop (d :: rest) (cur ++ [c]) row inQuotes rows

/-- The cell rows produced by `parseCSV` before the header-mapping stage
(build-data.mjs lines 26-57). -/
def parseCSVRows (text : String) : List (List String) :=
  parseCSVLoop text.data [] [] false []

/-! ## Row objects -/

/-- A parsed row object: column name to cell value, in insertion order. -/
def Row : Type := List (String × String)

instance : DecidableEq Row := by
  unfold Row
  exact inferInstance

/-- JS property read `o[k]` on a row object. -/
def rowGet (r : Row) (k : String) : Option String :=
  (r.find? (fun p => p.1 == k)).map (fun p => p.2)

/-- JS `Object.prototype.hasOwnProperty.call(o, k)` on a row object. -/
def hasOwn (r : Row) (k : String) : Bool :=
  r.any (fun p => p.1 == k)

/-- JS `Map.prototype.set` / object property assignment: overwrite the
entry in place when the key exists (a JS `Map` holds each key at most
once, which every map below satisfies since it is built from the empty
map by `mset`), append a new entry otherwise. -/
def mset {α : Type} : List (String × α) → String → α → List (String × α)
  | [], k, v => [(k, v)]
  | p :: m, k, v => if p.1 == k then (k, v) :: m else p :: mset m k v

/-- JS `Map.prototype.get` / object property read. -/
def mget {α : Type} (m : List (String × α)) (k : String) : Option α :=
  (m.find? (fun p => p.1 == k)).map (fun p => p.2)

/-- The header-mapping stage of `parseCSV` (build-data.mjs lines 60-67):
for each trimmed non-empty header at index `i`, assign the trimmed cell
`r[i] || ""`. -/
def rowObj (headers : List String) (r : List String) : Row :=
  (headers.enum).foldl
    (fun o hi => if hi.2 = "" then o else mset o hi.2 (jsTrim (r.getD hi.1 "")))
    []

/-- The full `parseCSV` of build-data.mjs lines 25-68: tokenize, shift the
first row as headers (trimmed), and map the remaining cell rows to row
objects. -/
def parseCSV (text : String) : List Row :=
  match parseCSVRows text with
  | [] => []
  | hdr :: rest => rest.map (rowObj (hdr.map jsTrim))

/-! ## The RFC-4180 serializer

Modelled from the spec: the round-trip property of spec section 8 speaks
of rows "serialized with RFC-4180 quoting"; no serializer exists in the
source, so it is defined here from the spec's words.  A field containing a
comma, a double quote, or a line break is wrapped in double quotes with
inner quotes doubled; fields are joined by commas, rows by a line feed,
with no trailing newline. -/

/-- Double every double quote (the RFC-4180 escape). -/
def escapeQuotes : List Char → List Char
  | [] => []
  | c :: rest =>
    if c = '"' then '"' :: '"' :: escapeQuotes rest else c :: escapeQuotes rest

/-- A field must be quoted when it contains a comma, a quote, or a line
break. -/
def needsQuote (s : String) : Bool :=
  s.data.any (fun c => c = ',' || c = '"' || c = '\n' || c = '\r')

/-- Serialize one field with RFC-4180 quoting. -/
def serializeFieldL (s : String) : List Char :=
  if needsQuote s then '"' :: (escapeQuotes s.data ++ ['"']) else s.data

/-- Serialize one row: fields joined by commas. -/
def joinRowL : List String → List Char
  | [] => []
  | f :: rest => serializeFieldL f ++ rest.flatMap (fun g => ',' :: serializeFieldL g)

/-- Serialize a row sequence: rows joined by a line feed, no trailing
newline. -/
def joinCSVL : List (List String) → List Char
  | [] => []
  | r :: rest => joinRowL r ++ rest.flatMap (fun q => '\n' :: joinRowL q)

/-- Serialize a row sequence to CSV text with RFC-4180 quoting. -/
def serializeCSV (rows : List (List String)) : String :=
  String.mk (joinCSVL rows)

/-! ## The field resolver `pick` -/

/-- The loop body of the canonical `pick` (build-data.mjs lines 70-75) on
a row that is an object: return the first alias whose value is an own
property and non-blank after trimming, trimmed; `""` when no alias
matches. -/
def pickOk (r : Row) : List String → String
  | [] => ""
  | k :: rest =>
    match rowGet r k with
    | some v => if jsTrim v ≠ "" then jsTrim v else pickOk r rest
    | none => pickOk r rest

/-- The canonical `pick` of build-data.mjs lines 70-75, with the row
argument possibly `undefined` (`none`).  The body runs
`Object.prototype.hasOwnProperty.call(obj, k)` for the first alias, which
throws a `TypeError` when `obj` is `undefined`; with an empty alias list
the loop body never runs and `""` is returned. -/
def pick : Option Row → List String → Except String String
  | _, [] => Except.ok ""
  | none, _ :: _ => Except.error "TypeError: Cannot convert undefined to object"
  | some r, keys => Except.ok (pickOk r keys)

/-- The `__keyMap` of the part_001 `pick` (lines 65-67):
`Object.fromEntries(Object.keys(row).map(k => [k.trim().toLowerCase(), k]))`.
With duplicate lower-cased keys, `fromEntries` keeps the last value, so a
lookup returns the last matching original key. -/
def keyMapGet (r : Row) (k : String) : Option String :=
  ((r.map (fun p => (jsToLower (jsTrim p.1), p.1))).reverse.find?
      (fun q => q.1 == k)).map (fun q => q.2)

/-- The loop body of the part_001 `pick` (lines 69-76): for each alias,
first an exact property read, then a case-insensitive lookup through the
key map; the empty-string key is rejected by the `real &&` test. -/
def pickV2Go (r : Row) : List String → String
  | [] => ""
  | k :: rest =>
    let ci :=
      match keyMapGet r (jsToLower (jsTrim k)) with
      | some real =>
        if real ≠ "" then
          match rowGet r real with
          | some v2 => if jsTrim v2 ≠ "" then jsTrim v2 else pickV2Go r rest
          | none => pickV2Go r rest
        else pickV2Go r rest
      | none => pickV2Go r rest
    match rowGet r k with
    | some v => if jsTrim v ≠ "" then jsTrim v else ci
    | none => ci

/-- The case-insensitive `pick` of src/unnamed/part_001 lines 63-77.  It
guards `if (!row) return ""` first, so a missing row never throws. -/
def pickV2 : Option Row → List String → String
  | none, _ => ""
  | some r, keys => pickV2Go r keys

/-! ## The reconciliation pipeline of build-data.mjs -/

/-- A Problem record (build-data.mjs lines 111-115). -/
structure ProblemRec where
  problem : String
  solution : String
  feature : String
deriving DecidableEq

/-- A Company record (build-data.mjs lines 125-137). -/
structure CompanyRec where
  id : String
  name : String
  website : String
  location : String
  target : String
  org_types : List String
  solutions : List ProblemRec
  problems : List String
deriving DecidableEq

/-- One step of the Problem index construction (build-data.mjs lines
107-116): skip rows without a `Problem`, otherwise store the record at the
normalized problem text. -/
def problemStep (m : List (String × ProblemRec)) (p : Row) :
    List (String × ProblemRec) :=
  let prob := pickOk p ["Problem"]
  if prob = "" then m
  else
    mset m (norm prob)
      { problem := prob
        solution := pickOk p ["Solution"]
        feature := pickOk p ["Feature", "OpenRecovery Feature"] }

/-- The Problem index (build-data.mjs lines 107-116). -/
def buildProblemMap (problems : List Row) : List (String × ProblemRec) :=
  problems.foldl problemStep []

/-- JS `String.prototype.split("|")` on the character list: split at
every `|`, keeping empty pieces (the empty string yields one empty
piece, as in JS). -/
def splitPipeGo (cur : List Char) : List Char → List String
  | [] => [String.mk cur]
  | c :: rest =>
    if c = '|' then String.mk cur :: splitPipeGo [] rest
    else splitPipeGo (cur ++ [c]) rest

/-- JS `String.prototype.split("|")`. -/
def splitPipe (s : String) : List String :=
  splitPipeGo [] s.data

/-- The Org Types list of a Companies row (build-data.mjs lines 131-134):
split the cell on `|`, trim each piece, drop the empty ones. -/
def orgTypesOf (c : Row) : List String :=
  ((splitPipe (pickOk c ["Org Types", "Org Type", "Category"])).map jsTrim).filter
    (fun x => x != "")

/-- The Company record built from one Companies row with non-empty name
(build-data.mjs lines 125-137). -/
def companyOf (c : Row) (name : String) : CompanyRec :=
  { id :=
      (fun i => if i ≠ "" then i
        else (fun s => if s ≠ "" then s else spacesToDash (norm name)) (slug name))
        (pickOk c ["Company ID"])
    name := name
    website := pickOk c ["Website", "URL"]
    location := pickOk c ["Location"]
    target := pickOk c ["Target", "Target Audience"]
    org_types := orgTypesOf c
    solutions := []
    problems := [] }

/-- One step of the Company index construction (build-data.mjs lines
119-138): skip rows without a name, otherwise store the record at the
normalized name. -/
def companyStep (m : List (String × CompanyRec)) (c : Row) :
    List (String × CompanyRec) :=
  let name := pickOk c ["Company Name", "Company"]
  if name = "" then m
  else mset m (norm name) (companyOf c name)

/-- The Company index (build-data.mjs lines 119-138). -/
def buildCompanyMap (companies : List Row) : List (String × CompanyRec) :=
  companies.foldl companyStep []

/-- The mutable state of the attach loop: the company index and the two
mismatch counters (build-data.mjs lines 141-142). -/
structure AttachState where
  companyMap : List (String × CompanyRec)
  missingCompany : Nat
  missingProblem : Nat
deriving DecidableEq

/-- One iteration of the attach loop (build-data.mjs lines 144-166): skip
rows with a blank company or problem reference; count an unresolved
company or problem; otherwise append the resolved Problem to the company
unless one with the same normalized problem text is already attached. -/
def attachStep (problemMap : List (String × ProblemRec)) (st : AttachState)
    (s : Row) : AttachState :=
  let cname := norm (pickOk s ["Company Name", "Company"])
  let probRaw := pickOk s ["Problem", "Common Problem"]
  if cname = "" ∨ probRaw = "" then st
  else
    match mget st.companyMap cname with
    | none => { st with missingCompany := st.missingCompany + 1 }
    | some company =>
      match mget problemMap (norm probRaw) with
      | none => { st with missingProblem := st.missingProblem + 1 }
      | some p =>
        if company.solutions.any (fun x => norm x.problem == norm p.problem) then st
        else
          { st with
            companyMap :=
              mset st.companyMap cname
                { company with solutions := company.solutions ++ [p] } }

/-- The derivation of `company.problems` after the attach loop
(build-data.mjs lines 169-171). -/
def deriveProblems (m : List (String × CompanyRec)) :
    List (String × CompanyRec) :=
  m.map (fun kv => (kv.1, { kv.2 with problems := kv.2.solutions.map (fun s => s.problem) }))

/-- The whole reconciliation (build-data.mjs lines 107-174): build both
indices, fold the attach loop over the link rows, derive `problems`, and
emit the companies in index order together with the two mismatch
counters. -/
def runPipeline (companies problems links : List Row) :
    List CompanyRec × Nat × Nat :=
  let pm := buildProblemMap problems
  let st := links.foldl (attachStep pm)
    { companyMap := buildCompanyMap companies, missingCompany := 0, missingProblem := 0 }
  ((deriveProblems st.companyMap).map (fun kv => kv.2),
    st.missingCompany, st.missingProblem)

/-! ## Specification-side reformulations

The next two definitions follow the words of the spec, not the source;
they exist to be compared with the source-derived definitions above. -/

/-- Following the spec's words in section 4.2: an alias "hits" when its
value is present and non-blank after trimming. -/
def aliasHit (r : Row) (k : String) : Bool :=
  jsTrim ((rowGet r k).getD "") != ""

/-- Following the spec's words in section 4.2: the value `pick` should
return is the trimmed value of the first alias that hits, or `""` when
none does. -/
def firstAliasValue (r : Row) (keys : List String) : String :=
  match keys.find? (aliasHit r) with
  | some k => jsTrim ((rowGet r k).getD "")
  | none => ""

/-- The Company record contributed to the index by the Companies row `r`
when its identity key is `k`, or `none` when the row is skipped or keyed
elsewhere. -/
def companyContrib (r : Row) (k : String) : Option CompanyRec :=
  let name := pickOk r ["Company Name", "Company"]
  if name = "" then none
  else if norm name = k then some (companyOf r name) else none

/-- The Company record kept for key `k` according to a last-seen-wins
reading: the contribution of the last Companies row whose identity key is
`k`. -/
def lastCompanyFor (cs : List Row) (k : String) : Option CompanyRec :=
  (cs.filterMap (fun r => companyContrib r k)).getLast?

/-! ## Analysis predicates for the `keyify` fixpoint argument -/

/-- Whether a character list starts with JS whitespace. -/
def headSpace : List Char → Bool
  | [] => false
  | c :: _ => isJsSpace c

/-- Whether a character list ends with JS whitespace. -/
def lastSpace (l : List Char) : Bool :=
  headSpace l.reverse

/-- Whitespace discipline of a `keyify` image: every whitespace character
is a plain space and is not followed by another whitespace character. -/
def spacedOK : List Char → Bool
  | [] => true
  | c :: rest =>
    (!(isJsSpace c) || ((c == ' ') && !(headSpace rest))) && spacedOK rest

/-- The characters a `keyify` image can contain: ASCII lower-case
letters, ASCII digits, and plain spaces. -/
def okChar (c : Char) : Bool :=
  isAsciiLower c || isDigitChar c || c == ' '

/-! ## Basic lemmas about insertion-order maps -/

theorem mget_cons {α : Type} (p : String × α) (m : List (String × α)) (k : String) :
    mget (p :: m) k = if p.1 == k then some p.2 else mget m k := by
  by_cases h : p.1 == k <;> simp [mget, List.find?_cons, h]

theorem mget_mset_self {α : Type} (m : List (String × α)) (k : String) (v : α) :
    mget (mset m k v) k = some v := by
  induction m with
  | nil => simp [mset, mget_cons]
  | cons p m ih =>
    by_cases hp : p.1 == k
    · simp [mset, hp, mget_cons]
    · simp [mset, hp, mget_cons, ih]

theorem mget_mset_ne {α : Type} (m : List (String × α)) (k kq : String) (v : α)
    (h : kq ≠ k) :
    mget (mset m k v) kq = mget m kq := by
  have hkq : (k == kq) = false := by
    simp only [beq_eq_false_iff_ne, ne_eq]
    exact fun hh => h hh.symm
  induction m with
  | nil => simp [mset, mget_cons, hkq, mget]
  | cons p m ih =>
    by_cases hp : p.1 == k
    · have hk : p.1 = k := by simpa using hp
      simp [mset, hp, mget_cons, hkq, hk]
    · simp [mset, hp, mget_cons, ih]

theorem mget_mset {α : Type} (m : List (String × α)) (k kq : String) (v : α) :
    mget (mset m k v) kq = if k = kq then some v else mget m kq := by
  by_cases h : k = kq
  · rw [if_pos h, h, mget_mset_self]
  · rw [if_neg h, mget_mset_ne]
    exact fun hh => h hh.symm

theorem mem_mset {α : Type} (m : List (String × α)) (k : String) (v : α)
    (q : String × α) (hq : q ∈ mset m k v) : q = (k, v) ∨ q ∈ m := by
  induction m with
  | nil =>
    simp only [mset, List.mem_singleton] at hq
    exact Or.inl hq
  | cons p m ih =>
    by_cases hp : (p.1 == k) = true
    · unfold mset at hq
      rw [if_pos hp] at hq
      rcases List.mem_cons.1 hq with hq | hq
      · exact Or.inl hq
      · exact Or.inr (List.mem_cons_of_mem p hq)
    · unfold mset at hq
      rw [if_neg hp] at hq
      rw [List.mem_cons] at hq
      rcases hq with hq | hq
      · exact Or.inr (hq ▸ List.mem_cons_self p m)
      · exact (ih hq).imp id (fun h => List.mem_cons_of_mem p h)

theorem mget_some_mem {α : Type} (m : List (String × α)) (k : String) (v : α)
    (h : mget m k = some v) : (k, v) ∈ m := by
  unfold mget at h
  cases hf : m.find? (fun p => p.1 == k) with
  | none => rw [hf] at h; exact absurd h (by simp)
  | some p =>
    rw [hf] at h
    have hk : p.1 = k := by simpa using List.find?_some hf
    have hm : p ∈ m := List.mem_of_find?_eq_some hf
    have hpv : p = (k, v) := by
      obtain ⟨a, b⟩ := p
      simp only at hk
      subst hk
      have hb : b = v := by simpa using h
      simp [hb]
    exact hpv ▸ hm

theorem mget_none_of {α : Type} (m : List (String × α)) (k : String)
    (h : mget m k = none) : ∀ q ∈ m, q.1 ≠ k := by
  intro q hq
  unfold mget at h
  cases hf : m.find? (fun p => p.1 == k) with
  | none =>
    have := List.find?_eq_none.1 hf q hq
    simpa using this
  | some p => rw [hf] at h; exact absurd h (by simp)

theorem mget_none_iff {α : Type} (m : List (String × α)) (k : String) :
    mget m k = none ↔ ∀ q ∈ m, q.1 ≠ k := by
  constructor
  · exact mget_none_of m k
  · intro h
    unfold mget
    rw [List.find?_eq_none.2]
    · rfl
    · intro p hp
      simpa using h p hp

theorem mset_keys_of_mem {α : Type} (m : List (String × α)) (k : String) (v : α)
    (h : m.any (fun p => p.1 == k) = true) :
    (mset m k v).map (fun p => p.1) = m.map (fun p => p.1) := by
  induction m with
  | nil => simp at h
  | cons p m ih =>
    by_cases hp : (p.1 == k) = true
    · have hk : p.1 = k := by simpa using hp
      unfold mset
      rw [if_pos hp]
      simp [hk]
    · simp only [List.any_cons, hp, Bool.false_or] at h
      unfold mset
      rw [if_neg hp]
      simp [ih h]

theorem mem_keys_mset {α : Type} (m : List (String × α)) (k : String) (v : α)
    (a : String) (ha : a ∈ (mset m k v).map (fun p => p.1)) :
    a = k ∨ a ∈ m.map (fun p => p.1) := by
  simp only [List.mem_map] at ha
  obtain ⟨q, hq, rfl⟩ := ha
  rcases mem_mset m k v q hq with h | h
  · exact Or.inl (by rw [h])
  · exact Or.inr (List.mem_map.2 ⟨q, h, rfl⟩)

theorem keys_nodup_mset {α : Type} (m : List (String × α)) (k : String) (v : α)
    (h : (m.map (fun p => p.1)).Nodup) :
    ((mset m k v).map (fun p => p.1)).Nodup := by
  induction m with
  | nil => simp [mset]
  | cons p m ih =>
    simp only [List.map_cons, List.nodup_cons] at h
    by_cases hp : (p.1 == k) = true
    · have hk : p.1 = k := by simpa using hp
      unfold mset
      rw [if_pos hp]
      simp only [List.map_cons, List.nodup_cons]
      exact ⟨hk ▸ h.1, h.2⟩
    · unfold mset
      rw [if_neg hp]
      simp only [List.map_cons, List.nodup_cons]
      refine ⟨fun hmem => ?_, ih h.2⟩
      rcases mem_keys_mset m k v p.1 hmem with he | he
      · exact hp (by simp [he])
      · exact h.1 he

/-! ## Lemmas about JS trim -/

theorem headSpace_dropWhile (l : List Char) :
    headSpace (l.dropWhile isJsSpace) = false := by
  induction l with
  | nil => rfl
  | cons c l ih =>
    by_cases hc : isJsSpace c
    · rw [List.dropWhile_cons_of_pos hc]
      exact ih
    · rw [List.dropWhile_cons_of_neg hc]
      simpa [headSpace] using hc

theorem dropWhile_of_headSpace_false (l : List Char) (h : headSpace l = false) :
    l.dropWhile isJsSpace = l := by
  cases l with
  | nil => rfl
  | cons c l => exact List.dropWhile_cons_of_neg (by simpa [headSpace] using h)

theorem trimRightL_reverse (l : List Char) :
    (trimRightL l).reverse = l.reverse.dropWhile isJsSpace := by
  simp [trimRightL]

theorem lastSpace_trimRightL (l : List Char) : lastSpace (trimRightL l) = false := by
  unfold lastSpace
  rw [trimRightL_reverse]
  exact headSpace_dropWhile _

theorem trimRightL_of_lastSpace_false (l : List Char) (h : lastSpace l = false) :
    trimRightL l = l := by
  unfold trimRightL
  unfold lastSpace at h
  rw [dropWhile_of_headSpace_false _ h]
  exact List.reverse_reverse l

theorem trimRightL_pref (l : List Char) : trimRightL l <+: l := by
  have h : (trimRightL l).reverse <:+ l.reverse := by
    rw [trimRightL_reverse]
    exact List.dropWhile_suffix _
  exact List.reverse_suffix.1 h

theorem headSpace_pref {l m : List Char} (h : l <+: m)
    (hm : headSpace m = false) : headSpace l = false := by
  obtain ⟨t, rfl⟩ := h
  cases l with
  | nil => rfl
  | cons c l => simpa [headSpace] using hm

theorem headSpace_jsTrimL (l : List Char) : headSpace (jsTrimL l) = false := by
  unfold jsTrimL
  exact headSpace_pref (trimRightL_pref _) (headSpace_dropWhile l)

theorem lastSpace_jsTrimL (l : List Char) : lastSpace (jsTrimL l) = false :=
  lastSpace_trimRightL _

theorem jsTrimL_of_clean (l : List Char) (h1 : headSpace l = false)
    (h2 : lastSpace l = false) : jsTrimL l = l := by
  unfold jsTrimL
  rw [dropWhile_of_headSpace_false l h1, trimRightL_of_lastSpace_false l h2]

theorem jsTrimL_idem (l : List Char) : jsTrimL (jsTrimL l) = jsTrimL l :=
  jsTrimL_of_clean _ (headSpace_jsTrimL l) (lastSpace_jsTrimL l)

theorem jsTrim_idem (s : String) : jsTrim (jsTrim s) = jsTrim s := by
  unfold jsTrim
  rw [show (String.mk (jsTrimL s.data)).data = jsTrimL s.data from rfl, jsTrimL_idem]

/-! ## Claim C9: blank link rows are skipped before the counters -/

/-- C9: in the canonical pipeline, a Company Solutions link row whose
company reference text or whose problem text is blank after normalization
is skipped before either mismatch counter is consulted (build-data.mjs
line 148): the attach-loop state — company index and both counters — is
returned unchanged, so nothing is attached and neither counter moves. -/
theorem C9_blank_link_row_skipped (pm : List (String × ProblemRec))
    (st : AttachState) (r : Row)
    (h : norm (pickOk r ["Company Name", "Company"]) = "" ∨
      pickOk r ["Problem", "Common Problem"] = "") :
    attachStep pm st r = st := by
  rcases h with h | h <;> simp [attachStep, h]

theorem C9_witness :
    (norm (pickOk [("Problem", "x")] ["Company Name", "Company"]) = "" ∨
      pickOk [("Problem", "x")] ["Problem", "Common Problem"] = "") ∧
    attachStep [] { companyMap := [], missingCompany := 0, missingProblem := 0 }
        [("Problem", "x")] =
      { companyMap := [], missingCompany := 0, missingProblem := 0 } :=
  ⟨Or.inl (by decide),
    C9_blank_link_row_skipped _ _ _ (Or.inl (by decide))⟩

/-! ## Claim C2: `problems` is derived from `solutions` -/

/-- Every emitted company is a company of the final index with its
`problems` field overwritten by the map of its solutions' problem
texts. -/
theorem out_problems_derived (cs ps ls : List Row) :
    ∀ c ∈ (runPipeline cs ps ls).1,
      c.problems = c.solutions.map (fun s => s.problem) := by
  intro c hc
  simp only [runPipeline, deriveProblems, List.map_map, List.mem_map] at hc
  obtain ⟨kv, _, rfl⟩ := hc
  rfl

/-- C2: for every Company in the emitted output, the `problems` field
equals the ordered list of the problem texts of its `solutions` entries
(build-data.mjs lines 169-171): the lists have equal length and agree
index by index. -/
theorem C2_problems_matches_solutions (cs ps ls : List Row) :
    ∀ c ∈ (runPipeline cs ps ls).1,
      c.problems.length = c.solutions.length ∧
      ∀ i, i < c.solutions.length →
        c.problems.getD i "" =
          (c.solutions.getD i { problem := "", solution := "", feature := "" }).problem := by
  intro c hc
  have h := out_problems_derived cs ps ls c hc
  refine ⟨by rw [h, List.length_map], ?_⟩
  intro i hi
  rw [h, List.getD_eq_getElem?_getD, List.getD_eq_getElem?_getD,
    List.getElem?_map, List.getElem?_eq_getElem hi]
  rfl

theorem C2_witness :
    ({ id := "c1", name := "Acme", website := "", location := "", target := "", org_types := [], solutions := [{ problem := "Slow onboarding", solution := "Add checklist", feature := "Checklist tool" }], problems := ["Slow onboarding"] } : CompanyRec) ∈ (runPipeline [[("Company Name", "Acme"), ("Company ID", "c1")]] [[("Problem", "Slow onboarding"), ("Solution", "Add checklist"), ("Feature", "Checklist tool")]] [[("Company Name", "ACME"), ("Problem", "slow onboarding")]]).1 ∧
    (["Slow onboarding"] : List String).getD 0 "" = (([{ problem := "Slow onboarding", solution := "Add checklist", feature := "Checklist tool" }] : List ProblemRec).getD 0 { problem := "", solution := "", feature := "" }).problem := by
  have hout : (runPipeline [[("Company Name", "Acme"), ("Company ID", "c1")]] [[("Problem", "Slow onboarding"), ("Solution", "Add checklist"), ("Feature", "Checklist tool")]] [[("Company Name", "ACME"), ("Problem", "slow onboarding")]]).1 = [{ id := "c1", name := "Acme", website := "", location := "", target := "", org_types := [], solutions := [{ problem := "Slow onboarding", solution := "Add checklist", feature := "Checklist tool" }], problems := ["Slow onboarding"] }] := by decide
  have hmem : ({ id := "c1", name := "Acme", website := "", location := "", target := "", org_types := [], solutions := [{ problem := "Slow onboarding", solution := "Add checklist", feature := "Checklist tool" }], problems := ["Slow onboarding"] } : CompanyRec) ∈ (runPipeline [[("Company Name", "Acme"), ("Company ID", "c1")]] [[("Problem", "Slow onboarding"), ("Solution", "Add checklist"), ("Feature", "Checklist tool")]] [[("Company Name", "ACME"), ("Problem", "slow onboarding")]]).1 := by
    rw [hout]
    exact List.mem_singleton.2 rfl
  exact ⟨hmem, (C2_problems_matches_solutions _ _ _ _ hmem).2 0 (by decide)⟩

/-! ## Counterexamples for the corrected claims -/

/-- C3 counterexample: the round-trip claim fails as stated, because
`parseCSV` drops blank rows.  The two-row sequence `[[" "], ["a"]]`
serializes to `" \na"`, and parsing it back yields only `[["a"]]`: the
blank row is gone, so the original row values are not reproduced. -/
theorem C3_counterexample :
    parseCSVRows (serializeCSV [[" "], ["a"]]) = [["a"]] ∧
    ([["a"]] : List (List String)) ≠ [[" "], ["a"]] := by
  constructor
  · decide
  · decide

/-- C4 counterexample: first-seen-wins fails as stated.  Two Companies
rows named `Acme` with websites `a.com` and `b.com` produce a single
output company carrying `b.com` — the record built from the second
(last) row, not the first. -/
theorem C4_counterexample :
    ((runPipeline
        [[("Company Name", "Acme"), ("Website", "a.com")],
          [("Company Name", "Acme"), ("Website", "b.com")]] [] []).1.map
      (fun c => c.website)) = ["b.com"] ∧
    ("b.com" : String) ≠ "a.com" := by
  constructor
  · decide
  · decide

/-- C5 counterexample: the canonical `pick` raises rather than returning
when the row argument is missing: `hasOwnProperty.call(undefined, k)`
throws a `TypeError` as soon as the first alias is tested, contradicting
the claim that `pick` does not raise for a missing row. -/
theorem C5_counterexample :
    pick none ["Company Name"] =
      Except.error "TypeError: Cannot convert undefined to object" := rfl

/-- C6 counterexample: a trailing blank row with no final newline is NOT
dropped by the canonical `parseCSV`: the final `if (cur || row.length)`
push (build-data.mjs lines 54-57) has no blank check, so the text
`"A,B\n1,2\n,"` ends in a blank row `["", ""]` that survives into the
output as an all-empty row mapping, contradicting the claim that every
blank row is dropped. -/
theorem C6_counterexample :
    parseCSV "A,B\n1,2\n," =
      [[("A", "1"), ("B", "2")], [("A", ""), ("B", "")]] := by
  decide

/-! ## The attach loop: case analysis and invariants -/

theorem mget_some_any {α : Type} (m : List (String × α)) (k : String) (v : α)
    (h : mget m k = some v) : m.any (fun p => p.1 == k) = true :=
  List.any_eq_true.2 ⟨(k, v), mget_some_mem m k v h, by simp⟩

/-- Case analysis of one attach-loop iteration: either the company index
is untouched, or the matched company gets one resolved Problem appended
under its key. -/
theorem attachStep_spec (pm : List (String × ProblemRec)) (st : AttachState)
    (r : Row) :
    (attachStep pm st r).companyMap = st.companyMap ∨
    ∃ company p,
      mget st.companyMap (norm (pickOk r ["Company Name", "Company"])) = some company ∧
      mget pm (norm (pickOk r ["Problem", "Common Problem"])) = some p ∧
      company.solutions.any (fun x => norm x.problem == norm p.problem) = false ∧
      (attachStep pm st r).companyMap =
        mset st.companyMap (norm (pickOk r ["Company Name", "Company"]))
          { company with solutions := company.solutions ++ [p] } := by
  simp only [attachStep]
  by_cases h1 : norm (pickOk r ["Company Name", "Company"]) = "" ∨
      pickOk r ["Problem", "Common Problem"] = ""
  · rw [if_pos h1]
    exact Or.inl rfl
  · rw [if_neg h1]
    cases hc : mget st.companyMap (norm (pickOk r ["Company Name", "Company"])) with
    | none => exact Or.inl rfl
    | some company =>
      dsimp only
      cases hp : mget pm (norm (pickOk r ["Problem", "Common Problem"])) with
      | none => exact Or.inl rfl
      | some p =>
        dsimp only
        by_cases hd : (company.solutions.any (fun x => norm x.problem == norm p.problem)) = true
        · rw [if_pos hd]
          exact Or.inl rfl
        · rw [if_neg hd]
          exact Or.inr ⟨company, p, rfl, rfl, by simpa using hd, rfl⟩

theorem attachStep_mget_none (pm : List (String × ProblemRec)) (st : AttachState)
    (r : Row) (k : String) (hk : mget st.companyMap k = none) :
    mget (attachStep pm st r).companyMap k = none := by
  rcases attachStep_spec pm st r with h | ⟨company, p, hc, _, _, h⟩
  · rw [h]; exact hk
  · rw [h, mget_mset_ne]
    · exact hk
    · intro he
      rw [he] at hk
      rw [hk] at hc
      cases hc

theorem foldl_attach_mget_none (pm : List (String × ProblemRec)) (ls : List Row)
    (st : AttachState) (k : String) (hk : mget st.companyMap k = none) :
    mget ((ls.foldl (attachStep pm) st).companyMap) k = none := by
  induction ls generalizing st with
  | nil => exact hk
  | cons r ls ih =>
    rw [List.foldl_cons]
    exact ih _ (attachStep_mget_none pm st r k hk)

theorem attachStep_keys (pm : List (String × ProblemRec)) (st : AttachState)
    (r : Row) :
    (attachStep pm st r).companyMap.map (fun p => p.1) =
      st.companyMap.map (fun p => p.1) := by
  rcases attachStep_spec pm st r with h | ⟨company, p, hc, _, _, h⟩
  · rw [h]
  · rw [h]
    exact mset_keys_of_mem _ _ _ (mget_some_any _ _ _ hc)

/-- The counters are pass-through state: one iteration from counters
`(a, b)` is the iteration from `(0, 0)` with `a` and `b` added. -/
theorem attachStep_counters (pm : List (String × ProblemRec)) (r : Row)
    (cm : List (String × CompanyRec)) (a b : Nat) :
    attachStep pm { companyMap := cm, missingCompany := a, missingProblem := b } r =
      { companyMap := (attachStep pm { companyMap := cm, missingCompany := 0, missingProblem := 0 } r).companyMap,
        missingCompany := (attachStep pm { companyMap := cm, missingCompany := 0, missingProblem := 0 } r).missingCompany + a,
        missingProblem := (attachStep pm { companyMap := cm, missingCompany := 0, missingProblem := 0 } r).missingProblem + b } := by
  simp only [attachStep]
  by_cases h1 : norm (pickOk r ["Company Name", "Company"]) = "" ∨
      pickOk r ["Problem", "Common Problem"] = ""
  · rw [if_pos h1, if_pos h1]
    simp
  · rw [if_neg h1, if_neg h1]
    cases hc : mget cm (norm (pickOk r ["Company Name", "Company"])) with
    | none => simp [Nat.add_comm]
    | some company =>
      dsimp only
      cases hp : mget pm (norm (pickOk r ["Problem", "Common Problem"])) with
      | none => simp [Nat.add_comm]
      | some p =>
        dsimp only
        by_cases hd : (company.solutions.any (fun x => norm x.problem == norm p.problem)) = true
        · rw [if_pos hd, if_pos hd]
          simp
        · rw [if_neg hd, if_neg hd]
          simp

theorem foldl_attach_shift (pm : List (String × ProblemRec)) (ls : List Row)
    (cm : List (String × CompanyRec)) (a b : Nat) :
    ls.foldl (attachStep pm) { companyMap := cm, missingCompany := a, missingProblem := b } =
      { companyMap := (ls.foldl (attachStep pm) { companyMap := cm, missingCompany := 0, missingProblem := 0 }).companyMap,
        missingCompany := (ls.foldl (attachStep pm) { companyMap := cm, missingCompany := 0, missingProblem := 0 }).missingCompany + a,
        missingProblem := (ls.foldl (attachStep pm) { companyMap := cm, missingCompany := 0, missingProblem := 0 }).missingProblem + b } := by
  induction ls generalizing cm a b with
  | nil => simp
  | cons r ls ih =>
    simp only [List.foldl_cons]
    rw [attachStep_counters pm r cm a b]
    generalize attachStep pm { companyMap := cm, missingCompany := 0, missingProblem := 0 } r = Y
    obtain ⟨cm2, a2, b2⟩ := Y
    rw [ih, ih cm2 a2 b2]
    simp only [AttachState.mk.injEq]
    refine ⟨?_, by omega, by omega⟩
    simp

theorem attachStep_missing (pm : List (String × ProblemRec)) (st : AttachState)
    (r : Row)
    (h1 : norm (pickOk r ["Company Name", "Company"]) ≠ "")
    (h2 : pickOk r ["Problem", "Common Problem"] ≠ "")
    (h3 : mget st.companyMap (norm (pickOk r ["Company Name", "Company"])) = none) :
    attachStep pm st r = { st with missingCompany := st.missingCompany + 1 } := by
  simp only [attachStep]
  rw [if_neg (by exact fun hor => hor.elim h1 h2), h3]


/-! ## Claim C7: unmatched company references -/

/-- C7: a link row whose company reference resolves to no Company in the
company index increments the unmatched-company counter and attaches
nothing: the emitted companies are exactly those of the run without that
row, the unmatched-company counter is one higher, and the
unmatched-problem counter is unchanged.  The attach loop is a total
function, so the mismatch never aborts the run (build-data.mjs lines
151-154). -/
theorem C7_unmatched_company (cs ps ls1 ls2 : List Row) (r : Row)
    (h1 : norm (pickOk r ["Company Name", "Company"]) ≠ "")
    (h2 : pickOk r ["Problem", "Common Problem"] ≠ "")
    (h3 : mget (buildCompanyMap cs) (norm (pickOk r ["Company Name", "Company"])) = none) :
    (runPipeline cs ps (ls1 ++ r :: ls2)).1 = (runPipeline cs ps (ls1 ++ ls2)).1 ∧
    (runPipeline cs ps (ls1 ++ r :: ls2)).2.1 = (runPipeline cs ps (ls1 ++ ls2)).2.1 + 1 ∧
    (runPipeline cs ps (ls1 ++ r :: ls2)).2.2 = (runPipeline cs ps (ls1 ++ ls2)).2.2 := by
  simp only [runPipeline, List.foldl_append, List.foldl_cons]
  generalize hst1 : List.foldl (attachStep (buildProblemMap ps))
    { companyMap := buildCompanyMap cs, missingCompany := 0, missingProblem := 0 } ls1 = st1
  have hnone : mget st1.companyMap (norm (pickOk r ["Company Name", "Company"])) = none := by
    rw [← hst1]
    exact foldl_attach_mget_none _ _ _ _ h3
  rw [attachStep_missing _ _ _ h1 h2 hnone]
  obtain ⟨cm1, a1, b1⟩ := st1
  dsimp only
  rw [foldl_attach_shift _ _ cm1 (a1 + 1) b1, foldl_attach_shift _ _ cm1 a1 b1]
  dsimp only
  exact ⟨rfl, by omega, rfl⟩

theorem C7_witness :
    (runPipeline [[("Company Name", "Acme"), ("Company ID", "c1")]] []
        [[("Company Name", "Nope"), ("Problem", "x")]]).1 =
      (runPipeline [[("Company Name", "Acme"), ("Company ID", "c1")]] [] []).1 ∧
    (runPipeline [[("Company Name", "Acme"), ("Company ID", "c1")]] []
        [[("Company Name", "Nope"), ("Problem", "x")]]).2.1 =
      (runPipeline [[("Company Name", "Acme"), ("Company ID", "c1")]] [] []).2.1 + 1 ∧
    (runPipeline [[("Company Name", "Acme"), ("Company ID", "c1")]] []
        [[("Company Name", "Nope"), ("Problem", "x")]]).2.2 =
      (runPipeline [[("Company Name", "Acme"), ("Company ID", "c1")]] [] []).2.2 :=
  C7_unmatched_company [[("Company Name", "Acme"), ("Company ID", "c1")]] [] [] []
    [("Company Name", "Nope"), ("Problem", "x")] (by decide) (by decide) (by decide)

/-! ## The company and problem indices -/

theorem foldl_companyStep_mem (cs : List Row) (m : List (String × CompanyRec))
    (q : String × CompanyRec) (hq : q ∈ cs.foldl companyStep m) :
    q ∈ m ∨ ∃ r ∈ cs,
      pickOk r ["Company Name", "Company"] ≠ "" ∧
      q = (norm (pickOk r ["Company Name", "Company"]),
        companyOf r (pickOk r ["Company Name", "Company"])) := by
  induction cs generalizing m with
  | nil => exact Or.inl hq
  | cons r cs ih =>
    rw [List.foldl_cons] at hq
    rcases ih _ hq with hmem | ⟨rq, hrq, hne, hform⟩
    · unfold companyStep at hmem
      by_cases hname : pickOk r ["Company Name", "Company"] = ""
      · rw [if_pos hname] at hmem
        exact Or.inl hmem
      · rw [if_neg hname] at hmem
        rcases mem_mset _ _ _ _ hmem with heq | hmem2
        · exact Or.inr ⟨r, List.mem_cons_self r cs, hname, heq⟩
        · exact Or.inl hmem2
    · exact Or.inr ⟨rq, List.mem_cons_of_mem r hrq, hne, hform⟩

theorem buildCompanyMap_mem (cs : List Row) (q : String × CompanyRec)
    (hq : q ∈ buildCompanyMap cs) :
    ∃ r ∈ cs,
      pickOk r ["Company Name", "Company"] ≠ "" ∧
      q = (norm (pickOk r ["Company Name", "Company"]),
        companyOf r (pickOk r ["Company Name", "Company"])) := by
  rcases foldl_companyStep_mem cs [] q hq with h | h
  · cases h
  · exact h

theorem foldl_companyStep_keys_nodup (cs : List Row)
    (m : List (String × CompanyRec)) (hm : (m.map (fun p => p.1)).Nodup) :
    ((cs.foldl companyStep m).map (fun p => p.1)).Nodup := by
  induction cs generalizing m with
  | nil => exact hm
  | cons r cs ih =>
    rw [List.foldl_cons]
    apply ih
    unfold companyStep
    by_cases hname : pickOk r ["Company Name", "Company"] = ""
    · rw [if_pos hname]
      exact hm
    · rw [if_neg hname]
      exact keys_nodup_mset _ _ _ hm

theorem buildCompanyMap_keys_nodup (cs : List Row) :
    ((buildCompanyMap cs).map (fun p => p.1)).Nodup :=
  foldl_companyStep_keys_nodup cs [] (by simp)

theorem foldl_problemStep_sound (ps : List Row) (m : List (String × ProblemRec))
    (hm : ∀ q ∈ m, norm q.2.problem = q.1) :
    ∀ q ∈ ps.foldl problemStep m, norm q.2.problem = q.1 := by
  induction ps generalizing m with
  | nil => exact hm
  | cons r ps ih =>
    rw [List.foldl_cons]
    apply ih
    intro q hq
    unfold problemStep at hq
    by_cases hp : pickOk r ["Problem"] = ""
    · rw [if_pos hp] at hq
      exact hm q hq
    · rw [if_neg hp] at hq
      rcases mem_mset _ _ _ _ hq with heq | hmem
      · rw [heq]
      · exact hm q hmem

theorem problemMap_key_sound (ps : List Row) :
    ∀ q ∈ buildProblemMap ps, norm q.2.problem = q.1 :=
  foldl_problemStep_sound ps [] (by intro q hq; cases hq)

/-! ## Field invariants through the attach loop -/

theorem attach_field_inv (pm : List (String × ProblemRec)) (st : AttachState)
    (r : Row) (P : String × CompanyRec → Prop)
    (hP : ∀ k c sols, P (k, c) → P (k, { c with solutions := sols }))
    (h : ∀ q ∈ st.companyMap, P q) :
    ∀ q ∈ (attachStep pm st r).companyMap, P q := by
  rcases attachStep_spec pm st r with heq | ⟨company, p, hc, _, _, heq⟩
  · rw [heq]
    exact h
  · rw [heq]
    intro q hq
    rcases mem_mset _ _ _ _ hq with hqe | hq2
    · rw [hqe]
      exact hP _ _ _ (h _ (mget_some_mem _ _ _ hc))
    · exact h q hq2

theorem foldl_attach_field_inv (pm : List (String × ProblemRec)) (ls : List Row)
    (st : AttachState) (P : String × CompanyRec → Prop)
    (hP : ∀ k c sols, P (k, c) → P (k, { c with solutions := sols }))
    (h : ∀ q ∈ st.companyMap, P q) :
    ∀ q ∈ (ls.foldl (attachStep pm) st).companyMap, P q := by
  induction ls generalizing st with
  | nil => exact h
  | cons r ls ih =>
    rw [List.foldl_cons]
    exact ih _ (attach_field_inv pm st r P hP h)

theorem foldl_attach_keys (pm : List (String × ProblemRec)) (ls : List Row)
    (st : AttachState) :
    ((ls.foldl (attachStep pm) st).companyMap).map (fun p => p.1) =
      st.companyMap.map (fun p => p.1) := by
  induction ls generalizing st with
  | nil => rfl
  | cons r ls ih =>
    rw [List.foldl_cons, ih, attachStep_keys]

/-! ## Claim C4: identity keys are unique; duplicates are last-seen-wins -/

theorem getLast?_cons_of_some {α : Type} (x c : α) (l : List α)
    (h : l.getLast? = some c) : (x :: l).getLast? = some c := by
  cases l with
  | nil => cases h
  | cons y l => rw [List.getLast?_cons_cons]; exact h

theorem filterMap_cons_eq_none {α β : Type} (f : α → Option β) (a : α)
    (l : List α) (h : f a = none) :
    List.filterMap f (a :: l) = List.filterMap f l :=
  List.filterMap_cons_none h

theorem filterMap_cons_eq_some {α β : Type} (f : α → Option β) (a : α)
    (l : List α) (b : β) (h : f a = some b) :
    List.filterMap f (a :: l) = b :: List.filterMap f l :=
  List.filterMap_cons_some h

/-- The company index lookup is exactly the last matching contribution:
`Map.set` overwrites, so on duplicate identity keys the record built from
the last Companies row wins. -/
theorem mget_foldl_companyStep (cs : List Row) (m : List (String × CompanyRec))
    (k : String) :
    mget (cs.foldl companyStep m) k =
      match (cs.filterMap (fun r => companyContrib r k)).getLast? with
      | some c => some c
      | none => mget m k := by
  induction cs generalizing m with
  | nil => rfl
  | cons r cs ih =>
    rw [List.foldl_cons, ih]
    by_cases hname : pickOk r ["Company Name", "Company"] = ""
    · rw [filterMap_cons_eq_none (fun r => companyContrib r k) r cs
        (by simp [companyContrib, hname])]
      unfold companyStep
      rw [if_pos hname]
    · by_cases hk : norm (pickOk r ["Company Name", "Company"]) = k
      · have hcontrib : companyContrib r k =
            some (companyOf r (pickOk r ["Company Name", "Company"])) := by
          unfold companyContrib
          rw [if_neg hname, if_pos hk]
        rw [filterMap_cons_eq_some (fun r => companyContrib r k) r cs _ hcontrib]
        cases hL : (cs.filterMap (fun r => companyContrib r k)).getLast? with
        | some c => rw [getLast?_cons_of_some _ _ _ hL]
        | none =>
          rw [List.getLast?_eq_none_iff.1 hL, List.getLast?_singleton]
          unfold companyStep
          rw [if_neg hname, mget_mset, if_pos hk]
      · have hcontrib : companyContrib r k = none := by
          unfold companyContrib
          rw [if_neg hname, if_neg hk]
        rw [filterMap_cons_eq_none (fun r => companyContrib r k) r cs hcontrib]
        cases hL : (cs.filterMap (fun r => companyContrib r k)).getLast? with
        | some c => rfl
        | none =>
          unfold companyStep
          rw [if_neg hname, mget_mset, if_neg hk]

/-- C4 (amended): the company index maps each identity key — the
normalized company name in the canonical pipeline — to a unique Company
in the output (the keys of the emitted companies are pairwise distinct),
and when several Companies rows produce the same identity key, the
Company record built from the LAST such row is the one kept
(`companyMap.set` overwrites, so duplicates are last-seen-wins, not
first-seen-wins). -/
theorem nodup_map_of_eq {α : Type} (m : List (String × α))
    (f : String × α → String)
    (h : ∀ q ∈ m, f q = q.1) (hnd : (m.map (fun p => p.1)).Nodup) :
    (m.map f).Nodup := by
  rw [List.map_congr_left h]
  exact hnd

/-- C4 (amended): the company index maps each identity key — the
normalized company name in the canonical pipeline — to a unique Company
in the output (the keys of the emitted companies are pairwise distinct),
and when several Companies rows produce the same identity key, the
Company record built from the LAST such row is the one kept
(`companyMap.set` overwrites, so duplicates are last-seen-wins, not
first-seen-wins). -/
theorem C4_identity_key_unique_last_wins :
    (∀ cs ps ls : List Row,
      ((runPipeline cs ps ls).1.map (fun c => norm c.name)).Nodup) ∧
    (∀ (cs : List Row) (k : String),
      mget (buildCompanyMap cs) k = lastCompanyFor cs k) := by
  constructor
  · intro cs ps ls
    have hinv : ∀ q ∈ (ls.foldl (attachStep (buildProblemMap ps))
        { companyMap := buildCompanyMap cs, missingCompany := 0,
          missingProblem := 0 }).companyMap, norm q.2.name = q.1 := by
      apply foldl_attach_field_inv
      · intro k c sols h
        exact h
      · intro q hq
        obtain ⟨r, _, hne, hform⟩ := buildCompanyMap_mem cs q hq
        rw [hform]
        rfl
    have hkeys := foldl_attach_keys (buildProblemMap ps) ls
      { companyMap := buildCompanyMap cs, missingCompany := 0, missingProblem := 0 }
    have hrun : (runPipeline cs ps ls).1 =
        (deriveProblems (ls.foldl (attachStep (buildProblemMap ps))
          { companyMap := buildCompanyMap cs, missingCompany := 0,
            missingProblem := 0 }).companyMap).map (fun kv => kv.2) := rfl
    rw [hrun, List.map_map]
    apply nodup_map_of_eq
    · intro q hq
      simp only [deriveProblems, List.mem_map] at hq
      obtain ⟨kv, hkv, rfl⟩ := hq
      exact hinv kv hkv
    · have hkd : (deriveProblems (ls.foldl (attachStep (buildProblemMap ps))
          { companyMap := buildCompanyMap cs, missingCompany := 0,
            missingProblem := 0 }).companyMap).map (fun p => p.1) =
          ((ls.foldl (attachStep (buildProblemMap ps))
          { companyMap := buildCompanyMap cs, missingCompany := 0,
            missingProblem := 0 }).companyMap).map (fun p => p.1) := by
        simp [deriveProblems, List.map_map]
      rw [hkd, hkeys]
      exact buildCompanyMap_keys_nodup cs
  · intro cs k
    unfold buildCompanyMap lastCompanyFor
    rw [mget_foldl_companyStep]
    cases (cs.filterMap (fun r => companyContrib r k)).getLast? with
    | some c => rfl
    | none => rfl

/-! ## Claim C10: `org_types` is the split-trim-filter of the cell -/

/-- C10: for every Company in the output, `org_types` equals the list
obtained by splitting that company's Org Types cell value on `|`,
trimming each piece, and dropping empty pieces (build-data.mjs lines
131-134); in particular `org_types` never contains an empty or
whitespace-only string (each element is non-empty and fixed by
trimming). -/
theorem C10_org_types_split (cs ps ls : List Row) :
    ∀ c ∈ (runPipeline cs ps ls).1,
      (∃ r ∈ cs, c.org_types =
        ((splitPipe (pickOk r ["Org Types", "Org Type", "Category"])).map jsTrim).filter
          (fun x => x != "")) ∧
      ∀ x ∈ c.org_types, x ≠ "" ∧ jsTrim x = x := by
  intro c hc
  have hrun : (runPipeline cs ps ls).1 =
      (deriveProblems (ls.foldl (attachStep (buildProblemMap ps))
        { companyMap := buildCompanyMap cs, missingCompany := 0,
          missingProblem := 0 }).companyMap).map (fun kv => kv.2) := rfl
  rw [hrun] at hc
  obtain ⟨kv2, hkv2, rfl⟩ := List.mem_map.1 hc
  simp only [deriveProblems, List.mem_map] at hkv2
  obtain ⟨kv, hkv, rfl⟩ := hkv2
  have horg : ∀ q ∈ (ls.foldl (attachStep (buildProblemMap ps))
      { companyMap := buildCompanyMap cs, missingCompany := 0,
        missingProblem := 0 }).companyMap,
      ∃ r ∈ cs, q.2.org_types = orgTypesOf r := by
    apply foldl_attach_field_inv
    · intro k c2 sols h
      exact h
    · intro q hq
      obtain ⟨r, hr, hne, hform⟩ := buildCompanyMap_mem cs q hq
      refine ⟨r, hr, ?_⟩
      rw [hform]
      rfl
  obtain ⟨r, hr, he⟩ := horg kv hkv
  constructor
  · refine ⟨r, hr, ?_⟩
    show kv.2.org_types = _
    rw [he]
    rfl
  · intro x hx
    have hx2 : x ∈ kv.2.org_types := hx
    rw [he] at hx2
    unfold orgTypesOf at hx2
    obtain ⟨hx3, hx4⟩ := List.mem_filter.1 hx2
    obtain ⟨y, _, rfl⟩ := List.mem_map.1 hx3
    refine ⟨by simpa using hx4, jsTrim_idem y⟩

theorem C10_witness :
    ("Nonprofit" : String) ≠ "" ∧ jsTrim "Nonprofit" = "Nonprofit" := by
  have hout : (runPipeline
      [[("Company Name", "Acme"), ("Company ID", "c1"), ("Org Types", " Nonprofit | Clinic |")]]
      [] []).1 =
      [{ id := "c1", name := "Acme", website := "", location := "", target := "", org_types := ["Nonprofit", "Clinic"], solutions := [], problems := [] }] := by
    decide
  have hmem : ({ id := "c1", name := "Acme", website := "", location := "", target := "", org_types := ["Nonprofit", "Clinic"], solutions := [], problems := [] } : CompanyRec) ∈
      (runPipeline
      [[("Company Name", "Acme"), ("Company ID", "c1"), ("Org Types", " Nonprofit | Clinic |")]]
      [] []).1 := by
    rw [hout]
    exact List.mem_singleton.2 rfl
  exact (C10_org_types_split _ _ _ _ hmem).2 "Nonprofit" (by decide)

/-! ## Claim C1: per-company dedup of solutions -/

theorem mget_isSome_any {α : Type} (m : List (String × α)) (k : String) :
    (mget m k).isSome = m.any (fun p => p.1 == k) := by
  induction m with
  | nil => rfl
  | cons p m ih =>
    by_cases hp : (p.1 == k) = true <;> simp [mget_cons, hp, ih]

theorem any_key_of_map_eq {α β : Type} (m1 : List (String × α))
    (m2 : List (String × β)) (k : String)
    (h : m1.map (fun p => p.1) = m2.map (fun p => p.1)) :
    m1.any (fun p => p.1 == k) = m2.any (fun p => p.1 == k) := by
  have haux : ∀ {γ : Type} (m : List (String × γ)),
      m.any (fun p => p.1 == k) = (m.map (fun p => p.1)).any (fun a => a == k) := by
    intro γ m
    induction m with
    | nil => rfl
    | cons p m ih => simp [ih]
  rw [haux m1, haux m2, h]

theorem foldl_attach_isSome (pm : List (String × ProblemRec)) (ls : List Row)
    (st : AttachState) (k : String) :
    (mget ((ls.foldl (attachStep pm) st).companyMap) k).isSome =
      (mget st.companyMap k).isSome := by
  rw [mget_isSome_any, mget_isSome_any,
    any_key_of_map_eq _ _ k (foldl_attach_keys pm ls st)]

/-- Processing a resolvable link row leaves the matched company with at
least one attached Problem carrying the resolved normalized key (either
it was already there — the dedup branch — or it is appended). -/
theorem attachStep_introduces (pm : List (String × ProblemRec)) (st : AttachState)
    (r : Row) (company : CompanyRec) (p : ProblemRec)
    (h1 : norm (pickOk r ["Company Name", "Company"]) ≠ "")
    (h2 : pickOk r ["Problem", "Common Problem"] ≠ "")
    (hc : mget st.companyMap (norm (pickOk r ["Company Name", "Company"])) = some company)
    (hp : mget pm (norm (pickOk r ["Problem", "Common Problem"])) = some p) :
    ∃ c, mget (attachStep pm st r).companyMap
        (norm (pickOk r ["Company Name", "Company"])) = some c ∧
      ∃ x ∈ c.solutions, norm x.problem = norm p.problem := by
  simp only [attachStep]
  rw [if_neg (fun hor => hor.elim h1 h2), hc]
  dsimp only
  rw [hp]
  dsimp only
  by_cases hd : (company.solutions.any (fun x => norm x.problem == norm p.problem)) = true
  · rw [if_pos hd]
    obtain ⟨x, hx, hbx⟩ := List.any_eq_true.1 hd
    exact ⟨company, hc, x, hx, by simpa using hbx⟩
  · rw [if_neg hd]
    refine ⟨{ company with solutions := company.solutions ++ [p] },
      mget_mset_self _ _ _, p, List.mem_append_right _ (List.mem_singleton.2 rfl), rfl⟩

theorem attach_witness_persists (pm : List (String × ProblemRec))
    (st : AttachState) (r : Row) (k κ : String)
    (h : ∃ c, mget st.companyMap k = some c ∧ ∃ x ∈ c.solutions, norm x.problem = κ) :
    ∃ c, mget (attachStep pm st r).companyMap k = some c ∧
      ∃ x ∈ c.solutions, norm x.problem = κ := by
  obtain ⟨c, hck, x, hx, hxk⟩ := h
  rcases attachStep_spec pm st r with heq | ⟨company, p, hc2, hp2, hd2, heq⟩
  · rw [heq]
    exact ⟨c, hck, x, hx, hxk⟩
  · rw [heq]
    by_cases hkey : norm (pickOk r ["Company Name", "Company"]) = k
    · rw [hkey] at hc2
      have hcc : c = company := by
        rw [hck] at hc2
        exact Option.some.inj hc2
      rw [hkey]
      refine ⟨{ company with solutions := company.solutions ++ [p] },
        mget_mset_self _ _ _, x, List.mem_append_left _ (hcc ▸ hx), hxk⟩
    · rw [mget_mset_ne _ _ _ _ (fun he => hkey he.symm)]
      exact ⟨c, hck, x, hx, hxk⟩

theorem foldl_attach_witness (pm : List (String × ProblemRec)) (ls : List Row)
    (st : AttachState) (k κ : String)
    (h : ∃ c, mget st.companyMap k = some c ∧ ∃ x ∈ c.solutions, norm x.problem = κ) :
    ∃ c, mget ((ls.foldl (attachStep pm) st).companyMap) k = some c ∧
      ∃ x ∈ c.solutions, norm x.problem = κ := by
  induction ls generalizing st with
  | nil => exact h
  | cons r ls ih =>
    rw [List.foldl_cons]
    exact ih _ (attach_witness_persists pm st r k κ h)

theorem attach_solutions_nodup (pm : List (String × ProblemRec))
    (st : AttachState) (r : Row)
    (h : ∀ q ∈ st.companyMap, (q.2.solutions.map (fun x => norm x.problem)).Nodup) :
    ∀ q ∈ (attachStep pm st r).companyMap,
      (q.2.solutions.map (fun x => norm x.problem)).Nodup := by
  rcases attachStep_spec pm st r with heq | ⟨company, p, hc, hp, hd, heq⟩
  · rw [heq]
    exact h
  · rw [heq]
    intro q hq
    rcases mem_mset _ _ _ _ hq with hqe | hq2
    · rw [hqe]
      have hcnd := h _ (mget_some_mem _ _ _ hc)
      show ((company.solutions ++ [p]).map (fun x => norm x.problem)).Nodup
      have hnotin : norm p.problem ∉
          company.solutions.map (fun x => norm x.problem) := by
        intro hmem
        obtain ⟨x, hx, hxe⟩ := List.mem_map.1 hmem
        have hany : company.solutions.any
            (fun x => norm x.problem == norm p.problem) = true :=
          List.any_eq_true.2 ⟨x, hx, by simp [hxe]⟩
        rw [hany] at hd
        cases hd
      rw [List.map_append]
      refine List.nodup_middle.2 ?_
      simp only [List.map_nil, List.append_nil]
      refine List.nodup_cons.2 ⟨hnotin, ?_⟩
      simpa using hcnd
    · exact h q hq2

theorem foldl_attach_solutions_nodup (pm : List (String × ProblemRec))
    (ls : List Row) (st : AttachState)
    (h : ∀ q ∈ st.companyMap, (q.2.solutions.map (fun x => norm x.problem)).Nodup) :
    ∀ q ∈ ((ls.foldl (attachStep pm) st).companyMap),
      (q.2.solutions.map (fun x => norm x.problem)).Nodup := by
  induction ls generalizing st with
  | nil => exact h
  | cons r ls ih =>
    rw [List.foldl_cons]
    exact ih _ (attach_solutions_nodup pm st r h)

theorem countP_key_eq_one (l : List ProblemRec) (κ : String)
    (hnd : (l.map (fun x => norm x.problem)).Nodup)
    (x : ProblemRec) (hx : x ∈ l) (hxκ : norm x.problem = κ) :
    l.countP (fun y => norm y.problem == κ) = 1 := by
  induction l with
  | nil => cases hx
  | cons z l ih =>
    simp only [List.map_cons, List.nodup_cons] at hnd
    by_cases hz : (norm z.problem == κ) = true
    · rw [List.countP_cons, if_pos hz]
      have hz2 : norm z.problem = κ := by simpa using hz
      have hzero : l.countP (fun y => norm y.problem == κ) = 0 := by
        rw [List.countP_eq_zero]
        intro a ha hba
        have ha2 : norm a.problem = κ := by simpa using hba
        exact hnd.1 (by
          rw [hz2, ← ha2]
          exact List.mem_map.2 ⟨a, ha, rfl⟩)
      rw [hzero]
    · rw [List.countP_cons, if_neg hz, Nat.add_zero]
      rcases List.mem_cons.1 hx with hxz | hx2
      · exact absurd (by simp [hxz ▸ hxκ]) hz
      · exact ih hnd.2 hx2

/-- C1: for every Company in the reconciled output, the solutions list
contains at most one Problem per normalized problem key — no two entries
of any company's solutions list share a normalized key (build-data.mjs
line 163) — and when a link row resolves to a company and an indexed
problem, exactly one entry for that normalized problem appears in that
company's solutions list, no matter how many link rows name it. -/
theorem C1_solutions_dedup (cs ps ls : List Row) :
    (∀ c ∈ (runPipeline cs ps ls).1,
      (c.solutions.map (fun x => norm x.problem)).Nodup) ∧
    (∀ r ∈ ls,
      norm (pickOk r ["Company Name", "Company"]) ≠ "" →
      pickOk r ["Problem", "Common Problem"] ≠ "" →
      (mget (buildCompanyMap cs) (norm (pickOk r ["Company Name", "Company"]))).isSome = true →
      (mget (buildProblemMap ps) (norm (pickOk r ["Problem", "Common Problem"]))).isSome = true →
      ∃ c ∈ (runPipeline cs ps ls).1,
        norm c.name = norm (pickOk r ["Company Name", "Company"]) ∧
        c.solutions.countP
          (fun x => norm x.problem == norm (pickOk r ["Problem", "Common Problem"])) = 1) := by
  have hbase : ∀ q ∈ buildCompanyMap cs,
      (q.2.solutions.map (fun x => norm x.problem)).Nodup := by
    intro q hq
    obtain ⟨r, _, _, hform⟩ := buildCompanyMap_mem cs q hq
    rw [hform]
    exact List.nodup_nil
  have hrun : (runPipeline cs ps ls).1 =
      (deriveProblems (ls.foldl (attachStep (buildProblemMap ps))
        { companyMap := buildCompanyMap cs, missingCompany := 0,
          missingProblem := 0 }).companyMap).map (fun kv => kv.2) := rfl
  have hnd : ∀ q ∈ (ls.foldl (attachStep (buildProblemMap ps))
      { companyMap := buildCompanyMap cs, missingCompany := 0,
        missingProblem := 0 }).companyMap,
      (q.2.solutions.map (fun x => norm x.problem)).Nodup :=
    foldl_attach_solutions_nodup _ _ _ hbase
  have hname : ∀ q ∈ (ls.foldl (attachStep (buildProblemMap ps))
      { companyMap := buildCompanyMap cs, missingCompany := 0,
        missingProblem := 0 }).companyMap, norm q.2.name = q.1 := by
    apply foldl_attach_field_inv
    · intro k c sols h
      exact h
    · intro q hq
      obtain ⟨r, _, _, hform⟩ := buildCompanyMap_mem cs q hq
      rw [hform]
      rfl
  constructor
  · intro c hc
    rw [hrun] at hc
    obtain ⟨kv2, hkv2, rfl⟩ := List.mem_map.1 hc
    simp only [deriveProblems, List.mem_map] at hkv2
    obtain ⟨kv, hkv, rfl⟩ := hkv2
    exact hnd kv hkv
  · intro r hr h1 h2 hcs hps
    obtain ⟨p, hp⟩ := Option.isSome_iff_exists.1 hps
    have hpsound : norm p.problem = norm (pickOk r ["Problem", "Common Problem"]) :=
      problemMap_key_sound ps _ (mget_some_mem _ _ _ hp)
    obtain ⟨l1, l2, rfl⟩ := List.append_of_mem hr
    have hsome1 : (mget ((l1.foldl (attachStep (buildProblemMap ps))
        { companyMap := buildCompanyMap cs, missingCompany := 0,
          missingProblem := 0 }).companyMap)
        (norm (pickOk r ["Company Name", "Company"]))).isSome = true := by
      rw [foldl_attach_isSome]
      exact hcs
    obtain ⟨company1, hc1⟩ := Option.isSome_iff_exists.1 hsome1
    have hintro := attachStep_introduces (buildProblemMap ps) _ r company1 p h1 h2 hc1 hp
    have hfin := foldl_attach_witness (buildProblemMap ps) l2 _
      (norm (pickOk r ["Company Name", "Company"])) (norm p.problem) hintro
    have hsplit : (l1 ++ r :: l2).foldl (attachStep (buildProblemMap ps))
        { companyMap := buildCompanyMap cs, missingCompany := 0, missingProblem := 0 } =
        l2.foldl (attachStep (buildProblemMap ps))
          (attachStep (buildProblemMap ps)
            (l1.foldl (attachStep (buildProblemMap ps))
              { companyMap := buildCompanyMap cs, missingCompany := 0,
                missingProblem := 0 }) r) := by
      rw [List.foldl_append, List.foldl_cons]
    obtain ⟨cF, hcF, x, hxF, hxκ⟩ := hfin
    have hmemF : (norm (pickOk r ["Company Name", "Company"]), cF) ∈
        ((l1 ++ r :: l2).foldl (attachStep (buildProblemMap ps))
          { companyMap := buildCompanyMap cs, missingCompany := 0,
            missingProblem := 0 }).companyMap := by
      rw [hsplit]
      exact mget_some_mem _ _ _ hcF
    refine ⟨{ cF with problems := cF.solutions.map (fun s => s.problem) }, ?_, ?_, ?_⟩
    · rw [hrun]
      refine List.mem_map.2
        ⟨(norm (pickOk r ["Company Name", "Company"]),
          { cF with problems := cF.solutions.map (fun s => s.problem) }), ?_, rfl⟩
      simp only [deriveProblems, List.mem_map]
      exact ⟨(norm (pickOk r ["Company Name", "Company"]), cF), hmemF, rfl⟩
    · exact hname _ hmemF
    · exact countP_key_eq_one cF.solutions _ (hnd _ hmemF) x hxF
        (by rw [hxκ]; exact hpsound)

theorem C1_witness :
    ∃ c ∈ (runPipeline [[("Company Name", "Acme"), ("Company ID", "c1")]]
      [[("Problem", "Slow onboarding"), ("Solution", "Add checklist"), ("Feature", "Checklist tool")]]
      [[("Company Name", "ACME"), ("Problem", "slow onboarding")],
        [("Company Name", "Acme"), ("Problem", "Slow Onboarding")]]).1,
      norm c.name = norm (pickOk [("Company Name", "ACME"), ("Problem", "slow onboarding")]
        ["Company Name", "Company"]) ∧
      c.solutions.countP
        (fun x => norm x.problem ==
          norm (pickOk [("Company Name", "ACME"), ("Problem", "slow onboarding")]
            ["Problem", "Common Problem"])) = 1 :=
  (C1_solutions_dedup [[("Company Name", "Acme"), ("Company ID", "c1")]]
    [[("Problem", "Slow onboarding"), ("Solution", "Add checklist"), ("Feature", "Checklist tool")]]
    [[("Company Name", "ACME"), ("Problem", "slow onboarding")],
      [("Company Name", "Acme"), ("Problem", "Slow Onboarding")]]).2
    [("Company Name", "ACME"), ("Problem", "slow onboarding")]
    (List.mem_cons_self _ _) (by decide) (by decide) (by decide) (by decide)

/-! ## Claim C5: the field resolver `pick` -/

theorem pickOk_eq_firstAliasValue (r : Row) (keys : List String) :
    pickOk r keys = firstAliasValue r keys := by
  induction keys with
  | nil => rfl
  | cons k rest ih =>
    by_cases hhit : aliasHit r k = true
    · have hfind : (k :: rest).find? (aliasHit r) = some k :=
        List.find?_cons_of_pos _ hhit
      have hrhs : firstAliasValue r (k :: rest) = jsTrim ((rowGet r k).getD "") := by
        unfold firstAliasValue
        rw [hfind]
      rw [hrhs]
      unfold aliasHit at hhit
      cases hv : rowGet r k with
      | none =>
        rw [hv] at hhit
        exact absurd hhit (by decide)
      | some v =>
        rw [hv] at hhit
        have ht : jsTrim v ≠ "" := by simpa using hhit
        simp only [pickOk]
        rw [hv]
        dsimp only
        rw [if_pos ht]
        rfl
    · have hfind : (k :: rest).find? (aliasHit r) = rest.find? (aliasHit r) :=
        List.find?_cons_of_neg _ (by simpa using hhit)
      have hrhs : firstAliasValue r (k :: rest) = firstAliasValue r rest := by
        unfold firstAliasValue
        rw [hfind]
      rw [hrhs, ← ih]
      unfold aliasHit at hhit
      cases hv : rowGet r k with
      | none =>
        simp only [pickOk]
        rw [hv]
      | some v =>
        rw [hv] at hhit
        have ht : ¬jsTrim v ≠ "" := by simpa using hhit
        simp only [pickOk]
        rw [hv]
        dsimp only
        rw [if_neg ht]

/-- C5 (amended): for every row mapping, the canonical `pick` returns the
trimmed value of the first alias whose value is present and non-blank
after trimming, and `""` when no alias matches; however, when the row
argument is missing (`undefined`), the canonical `pick` raises a
`TypeError` for any non-empty alias list (`hasOwnProperty.call(undefined,
k)` throws) and returns `""` only for an empty alias list, while the
case-insensitive part_001 variant returns `""` for a missing row without
raising. -/
theorem C5_pick_contract :
    (∀ (r : Row) (keys : List String),
      pick (some r) keys = Except.ok (firstAliasValue r keys)) ∧
    pick none [] = Except.ok "" ∧
    (∀ keys : List String, keys ≠ [] →
      pick none keys = Except.error "TypeError: Cannot convert undefined to object") ∧
    (∀ keys : List String, pickV2 none keys = "") := by
  refine ⟨?_, rfl, ?_, ?_⟩
  · intro r keys
    have hok : pick (some r) keys = Except.ok (pickOk r keys) := by
      cases keys <;> rfl
    rw [hok, pickOk_eq_firstAliasValue]
  · intro keys hk
    cases keys with
    | nil => exact absurd rfl hk
    | cons k rest => rfl
  · intro keys
    rfl

theorem C5_witness :
    pick none ["x"] = Except.error "TypeError: Cannot convert undefined to object" :=
  C5_pick_contract.2.2.1 ["x"] (by decide)

/-! ## Claim C6: which blank rows are dropped -/

theorem pushRow_inv (rows : List (List String)) (row : List String)
    (cur : List Char)
    (h : ∀ q ∈ rows, q.any (fun v => jsTrim v != "") = true) :
    ∀ q ∈ pushRow rows row cur, q.any (fun v => jsTrim v != "") = true := by
  simp only [pushRow]
  by_cases hb : ((row ++ [String.mk cur]).any (fun v => jsTrim v != "")) = true
  · rw [if_pos hb]
    intro q hq
    rcases List.mem_append.1 hq with hq | hq
    · exact h q hq
    · rw [List.mem_singleton.1 hq]
      exact hb
  · rw [if_neg hb]
    exact h

/-- Every row of the tokenizer output except possibly the last — the
trailing row pushed without the blank check — is non-blank. -/
theorem parseCSVLoop_dropLast_nonblank (l : List Char) (cur : List Char)
    (row : List String) (inQ : Bool) (rows : List (List String)) :
    (∀ q ∈ rows, q.any (fun v => jsTrim v != "") = true) →
    ∀ q ∈ (parseCSVLoop l cur row inQ rows).dropLast,
      q.any (fun v => jsTrim v != "") = true := by
  induction l, cur, row, inQ, rows using parseCSVLoop.induct with
  | case1 cur row inQ rows h =>
    intro hrows q hq
    rw [parseCSVLoop] at hq
    rw [if_pos h, List.dropLast_concat] at hq
    exact hrows q hq
  | case2 cur row inQ rows h =>
    intro hrows q hq
    rw [parseCSVLoop] at hq
    rw [if_neg h] at hq
    exact hrows q ((List.dropLast_sublist rows).subset hq)
  | case3 cur row inQ rows ih =>
    intro hrows q hq
    rw [parseCSVLoop] at hq
    rw [if_pos rfl] at hq
    exact ih hrows q hq
  | case4 c cur row inQ rows h1 h2 ih =>
    intro hrows q hq
    rw [parseCSVLoop] at hq
    rw [if_neg h1, if_pos h2] at hq
    exact ih hrows q hq
  | case5 c cur row inQ rows h1 h2 h3 ih =>
    intro hrows q hq
    rw [parseCSVLoop] at hq
    rw [if_neg h1, if_neg h2, if_pos h3] at hq
    exact ih (pushRow_inv _ _ _ hrows) q hq
  | case6 c cur row inQ rows h1 h2 h3 ih =>
    intro hrows q hq
    rw [parseCSVLoop] at hq
    rw [if_neg h1, if_neg h2, if_neg h3] at hq
    exact ih hrows q hq
  | case7 c d rest cur row inQ rows h ih =>
    intro hrows q hq
    rw [parseCSVLoop] at hq
    rw [if_pos h] at hq
    exact ih hrows q hq
  | case8 d rest cur row inQ rows h ih =>
    intro hrows q hq
    rw [parseCSVLoop] at hq
    rw [if_neg h, if_pos rfl] at hq
    exact ih hrows q hq
  | case9 c d rest cur row inQ rows h1 h2 h3 ih =>
    intro hrows q hq
    rw [parseCSVLoop] at hq
    rw [if_neg h1, if_neg h2, if_pos h3] at hq
    exact ih hrows q hq
  | case10 c d rest cur row inQ rows h1 h2 h3 h4 h5 ih =>
    intro hrows q hq
    rw [parseCSVLoop] at hq
    rw [if_neg h1, if_neg h2, if_neg h3, if_pos h4, if_pos h5] at hq
    exact ih (pushRow_inv _ _ _ hrows) q hq
  | case11 c d rest cur row inQ rows h1 h2 h3 h4 h5 ih =>
    intro hrows q hq
    rw [parseCSVLoop] at hq
    rw [if_neg h1, if_neg h2, if_neg h3, if_pos h4, if_neg h5] at hq
    exact ih (pushRow_inv _ _ _ hrows) q hq
  | case12 c d rest cur row inQ rows h1 h2 h3 h4 ih =>
    intro hrows q hq
    rw [parseCSVLoop] at hq
    rw [if_neg h1, if_neg h2, if_neg h3, if_neg h4] at hq
    exact ih hrows q hq

/-- C6 (amended): `parseCSV` drops every blank row that is terminated by
a row terminator — every tokenizer row except possibly the final
unterminated one is non-blank — and a non-blank trailing row with no
final newline is still correctly produced; a trailing BLANK row with no
final newline, however, is retained (see the counterexample), because the
final push has no blank check. -/
theorem C6_blank_rows_dropped :
    (∀ text : String, ∀ q ∈ (parseCSVRows text).dropLast,
      q.any (fun v => jsTrim v != "") = true) ∧
    parseCSVRows "A
1" = [["A"], ["1"]] ∧
    parseCSV "A
1" = [[("A", "1")]] := by
  refine ⟨?_, by decide, by decide⟩
  intro text q hq
  exact parseCSVLoop_dropLast_nonblank text.data [] [] false []
    (by intro q2 hq2; cases hq2) q hq

theorem C6_witness :
    (["x"] : List String) ∈ (parseCSVRows "x
 
y").dropLast ∧
    (["x"] : List String).any (fun v => jsTrim v != "") = true :=
  ⟨by decide, C6_blank_rows_dropped.1 "x
 
y" ["x"] (by decide)⟩

/-! ## Claim C3: RFC-4180 round trip -/

theorem loop_nil (cur : List Char) (row : List String) (inQ : Bool)
    (rows : List (List String)) :
    parseCSVLoop [] cur row inQ rows =
      if cur ≠ [] ∨ row ≠ [] then rows ++ [row ++ [String.mk cur]] else rows := by
  rw [parseCSVLoop]

theorem loop_plain (c : Char) (l cur : List Char) (row : List String)
    (inQ : Bool) (rows : List (List String)) (hq : c ≠ '"')
    (h : inQ = true ∨ (c ≠ ',' ∧ c ≠ '\n' ∧ c ≠ '\r')) :
    parseCSVLoop (c :: l) cur row inQ rows =
      parseCSVLoop l (cur ++ [c]) row inQ rows := by
  cases l with
  | nil =>
    conv_lhs => rw [parseCSVLoop]
    rcases h with h | ⟨h1, h2, h3⟩
    · subst h
      rw [if_neg hq, if_neg (by simp), if_neg (by simp)]
    · rw [if_neg hq, if_neg (fun hh => h1 hh.1),
        if_neg (fun hh => hh.1.elim h2 h3)]
  | cons d l2 =>
    conv_lhs => rw [parseCSVLoop]
    rcases h with h | ⟨h1, h2, h3⟩
    · subst h
      rw [if_neg (fun hh => hq hh.1), if_neg hq, if_neg (by simp),
        if_neg (by simp)]
    · rw [if_neg (fun hh => hq hh.1), if_neg hq, if_neg (fun hh => h1 hh.1),
        if_neg (fun hh => hh.1.elim h2 h3)]

theorem loop_quote_toggle (l cur : List Char) (row : List String) (inQ : Bool)
    (rows : List (List String)) (h : inQ = false ∨ l.head? ≠ some '"') :
    parseCSVLoop ('"' :: l) cur row inQ rows =
      parseCSVLoop l cur row (!inQ) rows := by
  cases l with
  | nil =>
    conv_lhs => rw [parseCSVLoop]
    rw [if_pos rfl]
  | cons d l2 =>
    have hneg : ¬('"' = '"' ∧ inQ = true ∧ d = '"') := by
      rcases h with h | h
      · intro hh
        rw [h] at hh
        cases hh.2.1
      · intro hh
        exact h (by rw [List.head?_cons, hh.2.2])
    conv_lhs => rw [parseCSVLoop]
    rw [if_neg hneg, if_pos rfl]

theorem loop_quote_escape (l cur : List Char) (row : List String)
    (rows : List (List String)) :
    parseCSVLoop ('"' :: '"' :: l) cur row true rows =
      parseCSVLoop l (cur ++ ['"']) row true rows := by
  conv_lhs => rw [parseCSVLoop]
  rw [if_pos ⟨rfl, rfl, rfl⟩]

theorem loop_comma (l cur : List Char) (row : List String)
    (rows : List (List String)) :
    parseCSVLoop (',' :: l) cur row false rows =
      parseCSVLoop l [] (row ++ [String.mk cur]) false rows := by
  cases l with
  | nil =>
    conv_lhs => rw [parseCSVLoop]
    rw [if_neg (by decide), if_pos ⟨rfl, rfl⟩]
  | cons d l2 =>
    conv_lhs => rw [parseCSVLoop]
    rw [if_neg (fun hh => absurd hh.1 (by decide)), if_neg (by decide),
      if_pos ⟨rfl, rfl⟩]

theorem loop_newline (l cur : List Char) (row : List String)
    (rows : List (List String)) :
    parseCSVLoop ('\n' :: l) cur row false rows =
      parseCSVLoop l [] [] false (pushRow rows row cur) := by
  cases l with
  | nil =>
    conv_lhs => rw [parseCSVLoop]
    rw [if_neg (by decide), if_neg (by decide), if_pos (by decide)]
  | cons d l2 =>
    conv_lhs => rw [parseCSVLoop]
    rw [if_neg (fun hh => absurd hh.1 (by decide)), if_neg (by decide),
      if_neg (by decide), if_pos (by decide),
      if_neg (fun hh => absurd hh.1 (by decide))]

theorem parse_escaped (sdata : List Char) (rest : List Char)
    (row : List String) (rows : List (List String))
    (h : rest.head? ≠ some '"') :
    ∀ cur : List Char,
      parseCSVLoop (escapeQuotes sdata ++ '"' :: rest) cur row true rows =
        parseCSVLoop rest (cur ++ sdata) row false rows := by
  induction sdata with
  | nil =>
    intro cur
    rw [show escapeQuotes [] ++ '"' :: rest = '"' :: rest from rfl]
    rw [loop_quote_toggle rest cur row true rows (Or.inr h)]
    simp
  | cons c sd ih =>
    intro cur
    by_cases hc : c = '"'
    · subst hc
      rw [show escapeQuotes ('"' :: sd) ++ '"' :: rest =
          '"' :: '"' :: (escapeQuotes sd ++ '"' :: rest) from by
            simp [escapeQuotes]]
      rw [loop_quote_escape, ih (cur ++ ['"']), List.append_assoc]
      rfl
    · rw [show escapeQuotes (c :: sd) ++ '"' :: rest =
          c :: (escapeQuotes sd ++ '"' :: rest) from by
            simp [escapeQuotes, hc]]
      rw [loop_plain c _ cur row true rows hc (Or.inl rfl),
        ih (cur ++ [c]), List.append_assoc]
      rfl

theorem parse_raw (sdata : List Char) (rest : List Char)
    (row : List String) (rows : List (List String)) :
    ∀ cur : List Char, (∀ c ∈ sdata, ¬(c = ',' ∨ c = '"' ∨ c = '\n' ∨ c = '\r')) →
      parseCSVLoop (sdata ++ rest) cur row false rows =
        parseCSVLoop rest (cur ++ sdata) row false rows := by
  induction sdata with
  | nil =>
    intro cur _
    simp
  | cons c sd ih =>
    intro cur h
    have hc := h c (List.mem_cons_self c sd)
    push_neg at hc
    rw [show (c :: sd) ++ rest = c :: (sd ++ rest) from rfl]
    rw [loop_plain c _ cur row false rows hc.2.1
      (Or.inr ⟨hc.1, hc.2.2.1, hc.2.2.2⟩)]
    rw [ih (cur ++ [c]) (fun c2 hc2 => h c2 (List.mem_cons_of_mem c hc2)),
      List.append_assoc]
    rfl

theorem parse_field (f : String) (rest cur : List Char) (row : List String)
    (rows : List (List String)) (h : rest.head? ≠ some '"') :
    parseCSVLoop (serializeFieldL f ++ rest) cur row false rows =
      parseCSVLoop rest (cur ++ f.data) row false rows := by
  by_cases hq : needsQuote f = true
  · rw [show serializeFieldL f ++ rest =
        '"' :: (escapeQuotes f.data ++ '"' :: rest) from by
          simp [serializeFieldL, hq]]
    rw [loop_quote_toggle _ _ _ _ _ (Or.inl rfl)]
    exact parse_escaped f.data rest row rows h cur
  · rw [show serializeFieldL f = f.data from by simp [serializeFieldL, hq]]
    apply parse_raw f.data rest row rows cur
    intro c hc hor
    apply hq
    unfold needsQuote
    refine List.any_eq_true.2 ⟨c, hc, ?_⟩
    rcases hor with h2 | h2 | h2 | h2 <;> simp [h2]

theorem dropLast_append_getLastD {α : Type} (r : List α) (d : α)
    (hne : r ≠ []) : r.dropLast ++ [r.getLastD d] = r := by
  induction r generalizing d with
  | nil => exact absurd rfl hne
  | cons x l ih =>
    cases l with
    | nil => rfl
    | cons y l2 =>
      rw [List.dropLast_cons₂, List.getLastD_cons, List.cons_append,
        ih x (by simp)]

theorem parse_joinRow (fs : List String) (rest : List Char)
    (row : List String) (rows : List (List String))
    (h : rest.head? ≠ some '"') :
    parseCSVLoop (joinRowL fs ++ rest) [] row false rows =
      parseCSVLoop rest ((fs.getLastD "").data) (row ++ fs.dropLast) false
        rows := by
  induction fs generalizing row with
  | nil => simp [joinRowL]
  | cons f fs2 ih =>
    cases fs2 with
    | nil =>
      rw [show joinRowL [f] = serializeFieldL f from by simp [joinRowL]]
      rw [parse_field f rest [] row rows h]
      simp
    | cons g fs3 =>
      rw [show joinRowL (f :: g :: fs3) ++ rest =
          serializeFieldL f ++ (',' :: (joinRowL (g :: fs3) ++ rest)) from by
            simp [joinRowL]]
      rw [parse_field f _ [] row rows (by rw [List.head?_cons]; decide)]
      rw [show ([] : List Char) ++ f.data = f.data from rfl]
      rw [loop_comma]
      rw [show String.mk f.data = f from rfl]
      rw [ih (row ++ [f])]
      simp [List.getLastD_cons, List.dropLast_cons₂, List.append_assoc]

theorem parse_joinCSV (rs : List (List String)) (acc : List (List String))
    (hnb : ∀ q ∈ rs, q.any (fun v => jsTrim v != "") = true) :
    parseCSVLoop (joinCSVL rs) [] [] false acc = acc ++ rs := by
  induction rs generalizing acc with
  | nil =>
    rw [show joinCSVL [] = [] from rfl, loop_nil]
    simp
  | cons r rs2 ih =>
    have hr := hnb r (List.mem_cons_self r rs2)
    have hne : r ≠ [] := by
      intro he
      rw [he] at hr
      cases hr
    cases rs2 with
    | nil =>
      rw [show joinCSVL [r] = joinRowL r ++ [] from by simp [joinCSVL]]
      rw [parse_joinRow r [] [] acc (by decide)]
      rw [loop_nil]
      have hcond : ((r.getLastD "").data ≠ [] ∨
          ([] : List String) ++ r.dropLast ≠ []) := by
        by_cases hd : r.dropLast = []
        · left
          have hrx : r = [r.getLastD ""] := by
            cases r with
            | nil => exact absurd rfl hne
            | cons x l =>
              cases l with
              | nil => rfl
              | cons y l2 =>
                rw [List.dropLast_cons₂] at hd
                cases hd
          have hxnb : (jsTrim (r.getLastD "") != "") = true := by
            rw [hrx] at hr
            obtain ⟨v, hv, hvb⟩ := List.any_eq_true.1 hr
            rw [List.mem_singleton] at hv
            subst hv
            exact hvb
          intro hdata
          have hstr : r.getLastD "" = "" := by
            have h2 := congrArg String.mk hdata
            simpa using h2
          rw [hstr] at hxnb
          exact absurd hxnb (by decide)
        · right
          simpa using hd
      rw [if_pos hcond]
      rw [show ([] : List String) ++ r.dropLast = r.dropLast from rfl]
      rw [show String.mk ((r.getLastD "").data) = r.getLastD "" from rfl]
      rw [dropLast_append_getLastD r "" hne]
    | cons r2 rs3 =>
      rw [show joinCSVL (r :: r2 :: rs3) =
          joinRowL r ++ ('\n' :: joinCSVL (r2 :: rs3)) from by
            simp [joinCSVL]]
      rw [parse_joinRow r _ [] acc (by rw [List.head?_cons]; decide)]
      rw [loop_newline]
      have hpush : pushRow acc (([] : List String) ++ r.dropLast)
          ((r.getLastD "").data) = acc ++ [r] := by
        simp only [pushRow, List.nil_append]
        rw [show String.mk ((r.getLastD "").data) = r.getLastD "" from rfl]
        rw [dropLast_append_getLastD r "" hne]
        rw [if_pos hr]
      rw [hpush]
      rw [ih (acc ++ [r]) (fun q hq => hnb q (List.mem_cons_of_mem r hq)),
        List.append_assoc]
      rfl

/-- C3 (amended): parsing the RFC-4180 serialization of a finite
sequence of rows of cell strings — cells may contain embedded commas,
double quotes, and newlines — reproduces the original row values exactly,
PROVIDED every row is non-blank (has at least one cell that is non-empty
after trimming); blank rows are dropped by `parseCSV` and therefore
cannot round-trip (see the counterexample). -/
theorem C3_round_trip (rows : List (List String))
    (h : ∀ r ∈ rows, ∃ v ∈ r, jsTrim v ≠ "") :
    parseCSVRows (serializeCSV rows) = rows := by
  have hnb : ∀ q ∈ rows, q.any (fun v => jsTrim v != "") = true := by
    intro q hq
    obtain ⟨v, hv, hnv⟩ := h q hq
    exact List.any_eq_true.2 ⟨v, hv, by simpa using hnv⟩
  unfold parseCSVRows serializeCSV
  rw [show (String.mk (joinCSVL rows)).data = joinCSVL rows from rfl]
  rw [parse_joinCSV rows [] hnb]
  rfl

theorem C3_witness :
    (∀ r ∈ ([["a,b", "he said \"hi\"", "line1\nline2"], ["x"]] : List (List String)),
      ∃ v ∈ r, jsTrim v ≠ "") ∧
    parseCSVRows (serializeCSV [["a,b", "he said \"hi\"", "line1\nline2"], ["x"]]) =
      [["a,b", "he said \"hi\"", "line1\nline2"], ["x"]] :=
  ⟨by decide, C3_round_trip _ (by decide)⟩

/-! ## Claim C8: `keyify` is idempotent -/

theorem okChar_ranges {c : Char} (h : okChar c = true) :
    (97 ≤ c.toNat ∧ c.toNat ≤ 122) ∨ (48 ≤ c.toNat ∧ c.toNat ≤ 57) ∨
      c.toNat = 32 := by
  unfold okChar isAsciiLower isDigitChar at h
  simp only [Bool.or_eq_true, Bool.and_eq_true, decide_eq_true_eq,
    beq_iff_eq] at h
  rcases h with (h | h) | h
  · exact Or.inl h
  · exact Or.inr (Or.inl h)
  · refine Or.inr (Or.inr ?_)
    rw [h]
    rfl

theorem jsLowerChar_ok {c : Char} (h : okChar c = true) : jsLowerChar c = c := by
  have hn : ¬(65 ≤ c.toNat ∧ c.toNat ≤ 90) := by
    rcases okChar_ranges h with ⟨h1, h2⟩ | ⟨h1, h2⟩ | h1 <;> omega
  unfold jsLowerChar
  rw [dif_neg hn]

theorem nbspToSpace_ok {c : Char} (h : okChar c = true) : nbspToSpace c = c := by
  have hn : ¬(c.toNat = 0xA0) := by
    rcases okChar_ranges h with ⟨h1, h2⟩ | ⟨h1, h2⟩ | h1 <;> omega
  unfold nbspToSpace
  rw [if_neg hn]

theorem smartDouble_ok {c : Char} (h : okChar c = true) : smartDouble c = c := by
  have hn : ¬(c.toNat = 0x201C ∨ c.toNat = 0x201D) := by
    rcases okChar_ranges h with ⟨h1, h2⟩ | ⟨h1, h2⟩ | h1 <;> omega
  unfold smartDouble
  rw [if_neg hn]

theorem smartSingle_ok {c : Char} (h : okChar c = true) : smartSingle c = c := by
  have hn : ¬(c.toNat = 0x2018 ∨ c.toNat = 0x2019) := by
    rcases okChar_ranges h with ⟨h1, h2⟩ | ⟨h1, h2⟩ | h1 <;> omega
  unfold smartSingle
  rw [if_neg hn]

theorem dashToSpace_ok {c : Char} (h : okChar c = true) : dashToSpace c = c := by
  have hn : ¬(c = '-' ∨ c = '_') := by
    intro hor
    rcases hor with h1 | h1 <;> (subst h1; exact absurd h (by decide))
  unfold dashToSpace
  rw [if_neg hn]

theorem keyifyKeep_ok {c : Char} (h : okChar c = true) : keyifyKeep c = true := by
  unfold okChar at h
  unfold keyifyKeep
  simp only [Bool.or_eq_true] at h ⊢
  rcases h with (h | h) | h
  · exact Or.inl (Or.inl (Or.inl h))
  · exact Or.inl (Or.inl (Or.inr h))
  · have hc : c = ' ' := by simpa using h
    subst hc
    exact Or.inl (Or.inr (by decide))

theorem map_id_of_forall {α : Type} (l : List α) (f : α → α)
    (h : ∀ c ∈ l, f c = c) : l.map f = l := by
  induction l with
  | nil => rfl
  | cons c rest ih =>
    rw [List.map_cons, h c (List.mem_cons_self c rest),
      ih (fun c2 hc2 => h c2 (List.mem_cons_of_mem c hc2))]

theorem squash_mem (l : List Char) (b : Bool) (c : Char)
    (hc : c ∈ squashRuns isJsSpace ' ' b l) :
    c = ' ' ∨ (c ∈ l ∧ isJsSpace c = false) := by
  induction l generalizing b with
  | nil => cases hc
  | cons d rest ih =>
    unfold squashRuns at hc
    by_cases hd : isJsSpace d = true
    · rw [if_pos hd] at hc
      cases b with
      | true =>
        rw [if_pos rfl] at hc
        rcases ih true hc with h | ⟨h1, h2⟩
        · exact Or.inl h
        · exact Or.inr ⟨List.mem_cons_of_mem d h1, h2⟩
      | false =>
        rw [if_neg (by decide)] at hc
        rcases List.mem_cons.1 hc with h | h
        · exact Or.inl h
        · rcases ih true h with h2 | ⟨h3, h4⟩
          · exact Or.inl h2
          · exact Or.inr ⟨List.mem_cons_of_mem d h3, h4⟩
    · rw [if_neg hd] at hc
      rcases List.mem_cons.1 hc with h | h
      · refine Or.inr ⟨h ▸ List.mem_cons_self d rest, ?_⟩
        rw [h]
        simpa using hd
      · rcases ih false h with h2 | ⟨h3, h4⟩
        · exact Or.inl h2
        · exact Or.inr ⟨List.mem_cons_of_mem d h3, h4⟩

theorem squash_spaced (l : List Char) (b : Bool) :
    spacedOK (squashRuns isJsSpace ' ' b l) = true ∧
    (b = true → headSpace (squashRuns isJsSpace ' ' b l) = false) := by
  induction l generalizing b with
  | nil => exact ⟨rfl, fun _ => rfl⟩
  | cons d rest ih =>
    unfold squashRuns
    by_cases hd : isJsSpace d = true
    · rw [if_pos hd]
      cases b with
      | true =>
        rw [if_pos rfl]
        exact ⟨(ih true).1, fun _ => (ih true).2 rfl⟩
      | false =>
        rw [if_neg (by decide)]
        refine ⟨?_, fun h => nomatch h⟩
        unfold spacedOK
        rw [Bool.and_eq_true]
        refine ⟨?_, (ih true).1⟩
        have h2 := (ih true).2 rfl
        simp [h2]
    · rw [if_neg hd]
      refine ⟨?_, fun _ => by simpa [headSpace] using hd⟩
      unfold spacedOK
      rw [Bool.and_eq_true]
      refine ⟨?_, (ih false).1⟩
      simp [hd]

theorem spacedOK_append_left (l m : List Char)
    (h : spacedOK (l ++ m) = true) : spacedOK l = true := by
  induction l with
  | nil => rfl
  | cons c rest ih =>
    rw [List.cons_append] at h
    unfold spacedOK at h ⊢
    rw [Bool.and_eq_true] at h ⊢
    refine ⟨?_, ih h.2⟩
    have h1 := h.1
    by_cases hc : isJsSpace c = true
    · simp only [hc, Bool.not_true, Bool.false_or, Bool.and_eq_true] at h1
      simp only [hc, Bool.not_true, Bool.false_or, Bool.and_eq_true]
      refine ⟨h1.1, ?_⟩
      cases rest with
      | nil => decide
      | cons e r2 =>
        rw [List.cons_append] at h1
        exact h1.2
    · simp [hc]

theorem spacedOK_append_right (l m : List Char)
    (h : spacedOK (l ++ m) = true) : spacedOK m = true := by
  induction l with
  | nil => exact h
  | cons c rest ih =>
    rw [List.cons_append] at h
    unfold spacedOK at h
    rw [Bool.and_eq_true] at h
    exact ih h.2

theorem spacedOK_jsTrimL (w : List Char) (h : spacedOK w = true) :
    spacedOK (jsTrimL w) = true := by
  unfold jsTrimL
  have hsuff : List.dropWhile isJsSpace w <:+ w := List.dropWhile_suffix isJsSpace
  obtain ⟨pre, hpre⟩ := hsuff
  have h1 : spacedOK (List.dropWhile isJsSpace w) = true :=
    spacedOK_append_right pre _ (by rw [hpre]; exact h)
  have hpref : trimRightL (List.dropWhile isJsSpace w) <+:
      List.dropWhile isJsSpace w := trimRightL_pref _
  obtain ⟨suf, hsuf⟩ := hpref
  exact spacedOK_append_left _ suf (by rw [hsuf]; exact h1)

theorem jsTrimL_subset (w : List Char) : ∀ c ∈ jsTrimL w, c ∈ w := by
  intro c hc
  unfold jsTrimL at hc
  exact (List.dropWhile_suffix isJsSpace).subset
    ((trimRightL_pref _).subset hc)

theorem keyifyL_chars (l : List Char) : ∀ c ∈ keyifyL l, okChar c = true := by
  intro c hc
  unfold keyifyL at hc
  have hw := jsTrimL_subset _ c hc
  rcases squash_mem _ _ c hw with rfl | ⟨hmem, hns⟩
  · decide
  · obtain ⟨d, hd, rfl⟩ := List.mem_map.1 hmem
    have hkeep : keyifyKeep d = true := (List.mem_filter.1 hd).2
    unfold dashToSpace at hns ⊢
    by_cases hdash : d = '-' ∨ d = '_'
    · rw [if_pos hdash] at hns
      exact absurd hns (by decide)
    · rw [if_neg hdash] at hns ⊢
      unfold keyifyKeep at hkeep
      simp only [Bool.or_eq_true] at hkeep
      rcases hkeep with ((h | h) | h) | h
      · unfold okChar
        simp [h]
      · unfold okChar
        simp [h]
      · simp [h] at hns
      · exact absurd (Or.inl (by simpa using h)) hdash

theorem keyifyL_spaced (l : List Char) : spacedOK (keyifyL l) = true :=
  spacedOK_jsTrimL _ ((squash_spaced _ false).1)

theorem squash_id (l : List Char) (b : Bool) (hok : spacedOK l = true)
    (hb : b = true → headSpace l = false) :
    squashRuns isJsSpace ' ' b l = l := by
  induction l generalizing b with
  | nil => rfl
  | cons c rest ih =>
    unfold spacedOK at hok
    rw [Bool.and_eq_true] at hok
    unfold squashRuns
    by_cases hc : isJsSpace c = true
    · have hbf : b = false := by
        cases b with
        | true =>
          have h2 := hb rfl
          rw [show headSpace (c :: rest) = isJsSpace c from rfl, hc] at h2
          exact Bool.noConfusion h2
        | false => rfl
      subst hbf
      rw [if_pos hc, if_neg (by decide)]
      have h1 := hok.1
      simp only [hc, Bool.not_true, Bool.false_or, Bool.and_eq_true] at h1
      obtain ⟨hsp, hhd⟩ := h1
      have hc2 : c = ' ' := by simpa using hsp
      have hhd2 : headSpace rest = false := by simpa using hhd
      rw [ih true hok.2 (fun _ => hhd2), hc2]
    · rw [if_neg hc]
      rw [ih false hok.2 (fun h => nomatch h)]

theorem keyifyL_idem (l : List Char) : keyifyL (keyifyL l) = keyifyL l := by
  have hchars := keyifyL_chars l
  have hspaced := keyifyL_spaced l
  have hhead : headSpace (keyifyL l) = false := headSpace_jsTrimL _
  have hlast : lastSpace (keyifyL l) = false := lastSpace_jsTrimL _
  conv_lhs => rw [keyifyL]
  rw [jsTrimL_of_clean _ hhead hlast]
  rw [map_id_of_forall _ jsLowerChar (fun c hc => jsLowerChar_ok (hchars c hc))]
  rw [map_id_of_forall _ nbspToSpace (fun c hc => nbspToSpace_ok (hchars c hc))]
  rw [map_id_of_forall _ smartDouble (fun c hc => smartDouble_ok (hchars c hc))]
  rw [map_id_of_forall _ smartSingle (fun c hc => smartSingle_ok (hchars c hc))]
  rw [List.filter_eq_self.2 (fun c hc => keyifyKeep_ok (hchars c hc))]
  rw [map_id_of_forall _ dashToSpace (fun c hc => dashToSpace_ok (hchars c hc))]
  rw [squash_id _ false hspaced (fun h => nomatch h)]
  rw [jsTrimL_of_clean _ hhead hlast]

/-- C8: `keyify` is idempotent — applying it twice gives the same string
as applying it once, for every input string (src/unnamed/part_001 lines
50-59): a `keyify` image consists only of lower-case ASCII letters,
digits, and single interior spaces, and every stage of `keyify` fixes
such strings. -/
theorem C8_keyify_idempotent (s : String) : keyify (keyify s) = keyify s := by
  unfold keyify
  rw [show (String.mk (keyifyL s.data)).data = keyifyL s.data from rfl,
    keyifyL_idem]

end OpenRecovery
